import Mathlib

set_option maxHeartbeats 1000000

namespace Fidoo

/-- JSON-like values handled by the extractor: scalars (string, number,
boolean, null), objects as ordered field lists, and arrays.  Mirrors the
record data model of src/main.py (Python dicts preserve insertion order,
so an object is an ordered association list). -/
inductive JVal where
  | str : String → JVal
  | num : Int → JVal
  | bool : Bool → JVal
  | null : JVal
  | obj : List (String × JVal) → JVal
  | arr : List JVal → JVal

/-- Null test on values (avoids needing decidable equality on JVal). -/
def isNull : JVal → Bool
  | JVal.null => true
  | _ => false

/-- A record: an ordered mapping from field names to values (a Python dict). -/
abbrev Rec := List (String × JVal)

/-- The nested-tables accumulator of extract_nested: an ordered mapping from
table name to its list of records (Python dict of lists). -/
abbrev NT := List (String × List Rec)

/-- First-occurrence lookup in an ordered field list (Python `d[k]` / `k in d`). -/
def lookup1 : Rec → String → Option JVal
  | [], _ => none
  | (k, v) :: rest, key => if k = key then some v else lookup1 rest key

/-- Python `record.get(key)`: the value, or None (null) when the key is absent. -/
def getVal (r : Rec) (key : String) : JVal := (lookup1 r key).getD JVal.null

/-- Python `key in record`. -/
def hasField (r : Rec) (key : String) : Bool := (lookup1 r key).isSome

/-- Python dict assignment / spread semantics: replace the value at the first
occurrence of the key, keeping its position, else append the pair at the end. -/
def dictInsert : Rec → String → JVal → Rec
  | [], key, v => [(key, v)]
  | (k, w) :: rest, key, v =>
    if k = key then (k, v) :: rest else (k, w) :: dictInsert rest key v

/-- Python `{**base, **fields}`: insert each field of `fields` into `base`
in order, with dict-assignment semantics. -/
def dictExtend (base : Rec) (fields : Rec) : Rec :=
  fields.foldl (fun acc kv => dictInsert acc kv.1 kv.2) base

/-- nested_tables bookkeeping in extract_nested (src/main.py lines 272-297):
`if name not in nested_tables: nested_tables[name] = []` followed by appends.
Appends the given records to the table of that name, creating it at the end
of the mapping if absent. -/
def ntAppend : NT → String → List Rec → NT
  | [], name, recs => [(name, recs)]
  | (n, rs) :: rest, name, recs =>
    if n = name then (n, rs ++ recs) :: rest else (n, rs) :: ntAppend rest name recs

/-- Python `all_nested[name] = flat` (src/main.py line 312): set-or-append. -/
def ntSet : NT → String → List Rec → NT
  | [], name, recs => [(name, recs)]
  | (n, rs) :: rest, name, recs =>
    if n = name then (n, recs) :: rest else (n, rs) :: ntSet rest name recs

/-- Python `all_nested.update(deeper_nested)` (src/main.py line 313). -/
def ntUpdateAll (base : NT) (upd : NT) : NT :=
  upd.foldl (fun acc kv => ntSet acc kv.1 kv.2) base

/-- A value is scalar when it is not an object and not an array. -/
def isScalar : JVal → Bool
  | JVal.obj _ => false
  | JVal.arr _ => false
  | _ => true

/-- A record is flat when every field value is scalar. -/
def flatRec (r : Rec) : Bool := r.all fun kv => isScalar kv.2

-- Nesting depth of a value (scalars have depth 0).
mutual
def depth : JVal → Nat
  | JVal.obj fields => 1 + depthFields fields
  | JVal.arr elems => 1 + depthList elems
  | _ => 0

def depthFields : List (String × JVal) → Nat
  | [] => 0
  | kv :: rest => max (depth kv.2) (depthFields rest)

def depthList : List JVal → Nat
  | [] => 0
  | v :: rest => max (depth v) (depthList rest)
end

/-- Depth of a record: the maximal depth among its field values. -/
def recDepth (r : Rec) : Nat := depthFields r

/-- Depth of a batch of records. -/
def batchDepth : List Rec → Nat
  | [] => 0
  | r :: rest => max (recDepth r) (batchDepth rest)

/-- Python `table_name.rstrip('s')`: remove every trailing 's'. -/
def rstripS (s : String) : String :=
  String.mk ((s.toList.reverse.dropWhile (fun c => c = 's')).reverse)

/-- Python `key.endswith(suf)` on character lists. -/
def strEndsWith (s suf : String) : Bool :=
  s.toList.reverse.take suf.toList.length == suf.toList.reverse

/-- Embeds detect_primary_key (src/main.py lines 215-238): candidates
`{table}Id`, `{table.rstrip('s')}Id`, `id`, `Id` checked against the first
record, then the first key of the first record ending in `Id`. -/
def detect_primary_key (records : List Rec) (tableName : String) : Option String :=
  match records with
  | [] => none
  | first :: _ =>
    let candidates := [tableName ++ "Id", rstripS tableName ++ "Id", "id", "Id"]
    match candidates.find? (fun c => hasField first c) with
    | some c => some c
    | none => (first.map Prod.fst).find? (fun k => strEndsWith k "Id")

/-- The key actually used by extract_nested (src/main.py lines 257-259):
the explicit argument when given, otherwise the detected key. -/
def resolved_pk (records : List Rec) (tableName : String) (primaryKey : Option String) :
    Option String :=
  match primaryKey with
  | some k => some k
  | none => detect_primary_key records tableName

/-- Python `record.get(primary_key) if primary_key else None` (src/main.py line 266). -/
def pkValue (pk : Option String) (r : Rec) : JVal :=
  match pk with
  | some k => getVal r k
  | none => JVal.null

/-- Abnormal outcomes of the embedded extract_nested: fuelOut marks a call
chain deeper than the supplied fuel (the Python code has no fuel and simply
keeps recursing), typeErr marks the TypeError Python raises when spreading a
non-dict element of an object-headed array. -/
inductive ExtractErr where
  | fuelOut : ExtractErr
  | typeErr : ExtractErr
deriving DecidableEq, Repr

/-- The array-of-objects loop (src/main.py lines 286-288): element i becomes
`{parent_id: pkv, idx: i, **item}`; a non-dict element makes the spread raise. -/
def spreadObjItems (pkv : JVal) : Nat → List JVal → Except ExtractErr (List Rec)
  | _, [] => Except.ok []
  | i, JVal.obj fields :: rest =>
    match spreadObjItems pkv (i + 1) rest with
    | Except.error e => Except.error e
    | Except.ok rs =>
      Except.ok (dictExtend [("parent_id", pkv), ("idx", JVal.num (Int.ofNat i))] fields :: rs)
  | _, _ :: _ => Except.error ExtractErr.typeErr

/-- The array-of-primitives loop (src/main.py lines 295-297): element i becomes
`{parent_id: pkv, idx: i, value: item}`. -/
def scalarItems (pkv : JVal) : Nat → List JVal → List Rec
  | _, [] => []
  | i, item :: rest =>
    [("parent_id", pkv), ("idx", JVal.num (Int.ofNat i)), ("value", item)] ::
      scalarItems pkv (i + 1) rest

/-- One iteration of the field loop of extract_nested (src/main.py lines
268-303): a non-empty object spawns one satellite record, a non-empty array
spawns one satellite record per element (object-headed arrays spread each
element, other arrays wrap each element as a value column), an empty
object/array degrades to null in the flat record, and any other value passes
through to the flat record. -/
def procOneField (tableName : String) (pkv : JVal) (k : String) (v : JVal)
    (main : Rec) (nt : NT) : Except ExtractErr (Rec × NT) :=
  match v with
  | JVal.obj fields =>
    if fields.isEmpty then Except.ok (dictInsert main k JVal.null, nt)
    else
      Except.ok (main, ntAppend nt (tableName ++ "__" ++ k)
        [dictExtend [("parent_id", pkv)] fields])
  | JVal.arr elems =>
    if elems.isEmpty then Except.ok (dictInsert main k JVal.null, nt)
    else
      match elems.head? with
      | some (JVal.obj _) =>
        match spreadObjItems pkv 0 elems with
        | Except.error e => Except.error e
        | Except.ok rs => Except.ok (main, ntAppend nt (tableName ++ "__" ++ k) rs)
      | _ => Except.ok (main, ntAppend nt (tableName ++ "__" ++ k) (scalarItems pkv 0 elems))
  | _ => Except.ok (dictInsert main k v, nt)

/-- The field loop of extract_nested over one record. -/
def procFields (tableName : String) (pkv : JVal) :
    List (String × JVal) → Rec → NT → Except ExtractErr (Rec × NT)
  | [], main, nt => Except.ok (main, nt)
  | (k, v) :: rest, main, nt =>
    match procOneField tableName pkv k v main nt with
    | Except.error e => Except.error e
    | Except.ok (main2, nt2) => procFields tableName pkv rest main2 nt2

/-- The record loop of extract_nested (src/main.py lines 264-305): builds the
flat main records in order while accumulating the nested tables. -/
def procRecords (tableName : String) (pk : Option String) :
    List Rec → List Rec → NT → Except ExtractErr (List Rec × NT)
  | [], mains, nt => Except.ok (mains, nt)
  | r :: rest, mains, nt =>
    match procFields tableName (pkValue pk r) r [] nt with
    | Except.error e => Except.error e
    | Except.ok (main, nt2) => procRecords tableName pk rest (mains ++ [main]) nt2

/-- The recursive pass over nested tables (src/main.py lines 308-313):
`flat, deeper = extract_nested(recs, name, "parent_id")`, then
`all_nested[name] = flat` and `all_nested.update(deeper)`. -/
def recurse_tables (f : List Rec → String → Except ExtractErr (List Rec × NT)) :
    NT → NT → Except ExtractErr NT
  | [], acc => Except.ok acc
  | (name, recs) :: rest, acc =>
    match f recs name with
    | Except.error e => Except.error e
    | Except.ok (flat, deeper) =>
      recurse_tables f rest (ntUpdateAll (ntSet acc name flat) deeper)

/-- Fuel-indexed embedding of extract_nested (src/main.py lines 241-315).
The Python function is plainly recursive with no fuel; the fuel bounds the
recursion depth, an empty batch returns at once without recursing (and so
costs no fuel), and a result of `Except.error ExtractErr.fuelOut` for every
fuel value means the Python call never returns. -/
def extract_nested_fuel : Nat → List Rec → String → Option String →
    Except ExtractErr (List Rec × NT)
  | 0, records, _, _ =>
    if records.isEmpty then Except.ok ([], []) else Except.error ExtractErr.fuelOut
  | fuel + 1, records, tableName, primaryKey =>
    if records.isEmpty then Except.ok ([], [])
    else
      match procRecords tableName (resolved_pk records tableName primaryKey) records [] [] with
      | Except.error e => Except.error e
      | Except.ok (mains, nt) =>
        match recurse_tables (fun recs name => extract_nested_fuel fuel recs name (some "parent_id")) nt [] with
        | Except.error e => Except.error e
        | Except.ok allNested => Except.ok (mains, allNested)

/-- extract_nested at its canonical fuel (one unit per nesting level plus one). -/
def extract_nested (records : List Rec) (tableName : String) (primaryKey : Option String) :
    Except ExtractErr (List Rec × NT) :=
  extract_nested_fuel (batchDepth records + 1) records tableName primaryKey

/-- Object test on values. -/
def isObjV : JVal → Bool
  | JVal.obj _ => true
  | _ => false

/-- A field list with no field named parent_id. -/
def noParentField (fields : Rec) : Bool := fields.all (fun kv => kv.1 != "parent_id")

/-- One-level guard against overriding the parent link: a nested object (or
each object element of an array) contains no top-level field named
parent_id, which the dict spread would otherwise let override the injected
link value. -/
def noParentOverride : JVal → Bool
  | JVal.obj fields => noParentField fields
  | JVal.arr elems => elems.all (fun e => match e with
      | JVal.obj fields => noParentField fields
      | _ => true)
  | _ => true

/-- An object-headed array contains only objects (otherwise the Python
spread raises TypeError). -/
def homogeneousArr (elems : List JVal) : Bool :=
  match elems.head? with
  | some (JVal.obj _) => elems.all isObjV
  | _ => true

-- Hereditary safety of values for the termination theorem: no nested object
-- carries a parent_id field and object-headed arrays are homogeneous, at
-- every nesting level.
mutual
def safeVal : JVal → Bool
  | JVal.obj fields => noParentField fields && safeFields fields
  | JVal.arr elems => homogeneousArr elems && safeElems elems
  | _ => true

def safeFields : List (String × JVal) → Bool
  | [] => true
  | kv :: rest => safeVal kv.2 && safeFields rest

def safeElems : List JVal → Bool
  | [] => true
  | v :: rest => safeVal v && safeElems rest
end

/-- Hereditary safety of a record. -/
def safeRec (r : Rec) : Bool := r.all (fun kv => safeVal kv.2)

/-- Hereditary safety of a batch. -/
def safeBatch (records : List Rec) : Bool := records.all safeRec

/-- The effective key value of every record in the batch is scalar. -/
def safeKey (pk : Option String) (records : List Rec) : Bool :=
  records.all (fun r => isScalar (pkValue pk r))

/-- Invariant of spawned satellite records relative to a strict depth bound:
the record is hereditarily safe, its parent link is scalar, and it is
strictly shallower than the bound. -/
def SatInv (D : Nat) (r : Rec) : Prop :=
  safeRec r = true ∧ isScalar (getVal r "parent_id") = true ∧ recDepth r < D

/-- A batch whose single record's inferred primary key (id) holds a
non-empty object. -/
def badBatch : List Rec := [[("id", JVal.obj [("x", JVal.num 1)])]]

/-- The satellite record that reproduces itself: extract_nested spawns it
from badBatch and again from itself, one nesting level per call, forever. -/
def badSat : Rec := [("parent_id", JVal.obj [("x", JVal.num 1)]), ("x", JVal.num 1)]

/-- Fidoo7Driver.MAX_PAGE_SIZE (src/fidoo_driver/client.py line 78). -/
def MAX_PAGE_SIZE : Int := 100

/-- Fidoo7Driver.SAFE_DEFAULT_PAGE_SIZE (src/fidoo_driver/client.py line 79). -/
def SAFE_DEFAULT_PAGE_SIZE : Int := 50

/-- Default max_retries of Fidoo7Driver (src/fidoo_driver/client.py line 110). -/
def DEFAULT_MAX_RETRIES : Nat := 3

/-- backoff_factor handed to the retry engine (src/fidoo_driver/client.py line 816). -/
def BACKOFF_FACTOR : Nat := 1

/-- Python truthiness on JSON values, as used by the `or` chain of
_parse_response and by `if offset:` in read. -/
def truthy : JVal → Bool
  | JVal.null => false
  | JVal.bool b => b
  | JVal.num n => n != 0
  | JVal.str s => s != ""
  | JVal.obj l => !l.isEmpty
  | JVal.arr l => !l.isEmpty

/-- The record-container keys probed by _parse_response, in order
(src/fidoo_driver/client.py lines 862-872). -/
def RESPONSE_KEYS : List String :=
  ["root", "items", "Items", "data", "Data", "results", "Results", "Records", "records"]

/-- Embeds _parse_response (src/fidoo_driver/client.py lines 826-884) on an
already-decoded JSON value: a top-level array is returned as is; an object
yields the first truthy value among the known record keys (the Python `or`
chain ending in `or []`), returned directly when it is a list and wrapped in
a singleton otherwise, with an empty list when every candidate is falsy; any
other JSON shape yields the empty list. -/
def parse_response (data : JVal) : List JVal :=
  match data with
  | JVal.arr l => l
  | JVal.obj fields =>
    match (RESPONSE_KEYS.map (fun k => getVal fields k)).find? truthy with
    | some (JVal.arr l) => l
    | some v => [v]
    | none => []
  | _ => []

/-- The offsetToken request parameter of read (src/fidoo_driver/client.py
lines 413-414): included when the offset argument is truthy. -/
def tokenParams : Option String → Rec
  | some t => if t != "" then [("offsetToken", JVal.str t)] else []
  | none => []

/-- Embeds the pre-network part of read (src/fidoo_driver/client.py lines
394-414): a missing limit defaults to SAFE_DEFAULT_PAGE_SIZE, a limit above
MAX_PAGE_SIZE raises ValidationError before the HTTP request is built or
sent, and otherwise the request body is `limit` plus `offsetToken` when the
offset argument is truthy. -/
def read_request (limit : Option Int) (offset : Option String) : Except Unit Rec :=
  let l := limit.getD SAFE_DEFAULT_PAGE_SIZE
  if MAX_PAGE_SIZE < l then Except.error ()
  else Except.ok ([("limit", JVal.num l)] ++ tokenParams offset)

/-- read (src/fidoo_driver/client.py lines 360-437) against an abstract
endpoint mapping offset tokens to response JSON: the response for the
requested token is parsed by _parse_response into a list of records.  The
value returned to the caller is always a Python list, never the raw response
object, so the response's pagination fields do not survive parsing. -/
def read_records (api : Option String → JVal) (offsetToken : Option String) : List JVal :=
  parse_response (api offsetToken)

/-- The test `isinstance(batch, dict)` in read_batched (src/fidoo_driver/
client.py lines 473 and 477): the batch returned by read is always a list
(read returns List and _parse_response always returns a list), so this
runtime type test is always False. -/
def batch_is_dict (_ : List JVal) : Bool := false

/-- The test `batch.get("complete")` in read_batched (line 473), guarded by
batch_is_dict and therefore never consulted; modelled as False. -/
def batch_complete (_ : List JVal) : Bool := false

/-- The token extraction `batch["nextOffsetToken"]` of read_batched (lines
477-478), guarded by `isinstance(batch, dict) and "nextOffsetToken" in
batch`, which is always False for the list returned by read; no token is
ever extracted. -/
def batch_next_token (_ : List JVal) : Option String := none

/-- Embeds the read_batched loop (src/fidoo_driver/client.py lines 460-481)
with an explicit request trace.  The first component collects the yielded
batches in order, the second the offset tokens of the requests issued.  The
fuel bounds the number of loop iterations of the unbounded Python
`while True`. -/
def read_batched_go (api : Option String → JVal) : Nat → Option String →
    List (List JVal) × List (Option String)
  | 0, _ => ([], [])
  | fuel + 1, tok =>
    let batch := read_records api tok
    if batch.isEmpty then ([], [tok])
    else
      if batch_is_dict batch && batch_complete batch then ([batch], [tok])
      else
        match batch_next_token batch with
        | some t =>
          let rest := read_batched_go api fuel (some t)
          (batch :: rest.1, tok :: rest.2)
        | none => ([batch], [tok])

/-- read_batched starts its loop with offset_token = None (line 460). -/
def read_batched (api : Option String → JVal) (fuel : Nat) :
    List (List JVal) × List (Option String) :=
  read_batched_go api fuel none

-- Equality test on JSON values (used to model SQL DISTINCT).
mutual
def beqV : JVal → JVal → Bool
  | JVal.str a, JVal.str b => a == b
  | JVal.num a, JVal.num b => a == b
  | JVal.bool a, JVal.bool b => a == b
  | JVal.null, JVal.null => true
  | JVal.obj a, JVal.obj b => beqFields a b
  | JVal.arr a, JVal.arr b => beqList a b
  | _, _ => false

def beqFields : List (String × JVal) → List (String × JVal) → Bool
  | [], [] => true
  | (k, v) :: r, (k2, v2) :: r2 => k == k2 && beqV v v2 && beqFields r r2
  | _, _ => false

def beqList : List JVal → List JVal → Bool
  | [], [] => true
  | v :: r, v2 :: r2 => beqV v v2 && beqList r r2
  | _, _ => false
end

/-- First-occurrence deduplication with a seen accumulator. -/
def distinctFirstAux : List JVal → List JVal → List JVal
  | _, [] => []
  | seen, v :: rest =>
    if seen.any (fun w => beqV w v) then distinctFirstAux seen rest
    else v :: distinctFirstAux (seen ++ [v]) rest

/-- First-occurrence deduplication, modelling SELECT DISTINCT
(src/main.py line 432; DuckDB reports each distinct value once). -/
def distinctFirst (l : List JVal) : List JVal := distinctFirstAux [] l

/-- Generic first-occurrence association lookup (used for staged tables and
count maps). -/
def alistFind {α : Type} : List (String × α) → String → Option α
  | [], _ => none
  | (k, v) :: rest, key => if k = key then some v else alistFind rest key

/-- Configuration of a dependent object type (src/main.py lines 170-189). -/
structure DepConfig where
  endpoint : String
  source_table : String
  source_id_field : String
  param_name : String

/-- The staging store: named tables of records. -/
abbrev Store := List (String × List Rec)

/-- The distinct non-null values of the source table's id column
(src/main.py lines 431-433, SELECT DISTINCT ... WHERE ... IS NOT NULL). -/
def depIds (rows : List Rec) (cfg : DepConfig) : List JVal :=
  distinctFirst ((rows.map (fun r => getVal r cfg.source_id_field)).filter (fun v => !isNull v))

/-- The records one id contributes to the merged dependent output: none on a
fetch failure, the tagged records on success (used to state the resolver
property). -/
def taggedOk (cfg : DepConfig) (fetch : JVal → Except Unit (List Rec)) (idv : JVal) :
    List Rec :=
  match fetch idv with
  | Except.error _ => []
  | Except.ok recs => recs.map (fun r => dictInsert r ("_source_" ++ cfg.source_id_field) idv)

/-- One iteration of the dependent fetch loop (src/main.py lines 449-469):
a failed fetch is logged and skipped; a successful fetch counts as a call
and, when non-empty, every record is tagged with the source id before being
appended to the merged output. -/
def depStep (cfg : DepConfig) (fetch : JVal → Except Unit (List Rec))
    (acc : List Rec × List JVal) (idv : JVal) : List Rec × List JVal :=
  match fetch idv with
  | Except.error _ => acc
  | Except.ok recs =>
    if recs.isEmpty then (acc.1, acc.2 ++ [idv])
    else
      (acc.1 ++ recs.map (fun r => dictInsert r ("_source_" ++ cfg.source_id_field) idv),
       acc.2 ++ [idv])

/-- Embeds export_dependent_to_duckdb (src/main.py lines 404-498) up to the
point where the merged records are handed to the normalizer: none encodes
the early `return 0` paths (source table missing, no non-null ids, or no
records fetched at all); some carries the merged tagged records and the list
of ids whose fetch succeeded (call_count is incremented only after a
successful read, src/main.py line 454).  Each id of the distinct non-null id
list is fetched exactly once, in order; a failed fetch is skipped
(`continue`, line 469) without aborting the remaining ids, and every fetched
record is tagged with `_source_{source_id_field} = id` before merging. -/
def export_dependent (store : Store) (cfg : DepConfig)
    (fetch : JVal → Except Unit (List Rec)) : Option (List Rec × List JVal) :=
  match alistFind store cfg.source_table with
  | none => none
  | some rows =>
    let ids := depIds rows cfg
    if ids.isEmpty then none
    else
      let res := ids.foldl (depStep cfg fetch) ([], [])
      if res.1.isEmpty then none else some res

/-- The keys of PRIMARY_ENDPOINTS (src/main.py lines 150-167). -/
def PRIMARY_OBJECTS : List String :=
  ["user", "card", "transaction", "cash_transaction", "mvc_transaction", "expense",
   "travel_report", "travel_request", "personal_billing", "account", "cost_center",
   "project", "account_assignment", "accounting_category", "vat_breakdown", "vehicle"]

/-- Dependent object types and their source tables
(src/main.py lines 170-189). -/
def DEPENDENT_CONFIGS : List (String × String) :=
  [("expense_item", "expense"), ("travel_report_detail", "travel_report"),
   ("travel_request_detail", "travel_request")]

/-- Python `object_counts[name] = n`: set-or-append on the count mapping. -/
def setCount : List (String × Nat) → String → Nat → List (String × Nat)
  | [], key, n => [(key, n)]
  | (k, m) :: rest, key, n =>
    if k = key then (k, n) :: rest else (k, m) :: setCount rest key n

/-- Phase 1 of main (src/main.py lines 686-701): unknown object types are
skipped without a count entry; a per-object failure is caught and recorded
as count 0; the loop always continues. -/
def phase1 (exportP : String → Except Unit Nat) :
    List String → List (String × Nat) → List (String × Nat)
  | [], counts => counts
  | obj :: rest, counts =>
    if PRIMARY_OBJECTS.contains obj then
      match exportP obj with
      | Except.ok n => phase1 exportP rest (setCount counts obj n)
      | Except.error _ => phase1 exportP rest (setCount counts obj 0)
    else phase1 exportP rest counts

/-- Phase 2 of main (src/main.py lines 704-724): a dependent object type is
processed only when its source table was requested; a per-object failure is
caught and recorded as count 0. -/
def phase2 (objects : List String) (exportD : String → Except Unit Nat) :
    List (String × String) → List (String × Nat) → List (String × Nat)
  | [], counts => counts
  | (dobj, src) :: rest, counts =>
    if objects.contains src then
      match exportD dobj with
      | Except.ok n => phase2 objects exportD rest (setCount counts dobj n)
      | Except.error _ => phase2 objects exportD rest (setCount counts dobj 0)
    else phase2 objects exportD rest counts

/-- The fallible steps of one pipeline run, main (src/main.py lines 611-763):
configuration (the api key), driver construction, staging-store opening, the
per-object export outcomes of the two phases, the export phase, and the
state write. -/
structure RunInput where
  apiKey : Option String
  driverInit : Except Unit Unit
  storeOpen : Except Unit Unit
  objects : List String
  includeDependent : Bool
  primaryExport : String → Except Unit Nat
  dependentExport : String → Except Unit Nat
  phase3 : Except Unit (List (String × Nat))
  stateWrite : Except Unit Unit

/-- Embeds main (src/main.py lines 611-763) at the level of its fallible
steps.  Per-object failures inside phases 1 and 2 are caught per object
(src/main.py lines 694-701 and 717-724) and recorded as count 0; every other
failure propagates to the outer handler, which fails the run (exit(1),
line 763). -/
def main_run (inp : RunInput) : Except Unit (List (String × Nat)) :=
  match inp.apiKey with
  | none => Except.error ()
  | some _ =>
    match inp.driverInit with
    | Except.error _ => Except.error ()
    | Except.ok _ =>
      match inp.storeOpen with
      | Except.error _ => Except.error ()
      | Except.ok _ =>
        let counts1 := phase1 inp.primaryExport inp.objects []
        let counts2 := if inp.includeDependent then
            phase2 inp.objects inp.dependentExport DEPENDENT_CONFIGS counts1
          else counts1
        match inp.phase3 with
        | Except.error _ => Except.error ()
        | Except.ok _ =>
          match inp.stateWrite with
          | Except.error _ => Except.error ()
          | Except.ok _ => Except.ok counts2

/-- A run whose configuration, driver and store all come up fine, every
per-object export succeeds, and the export phase fails. -/
def phase3FailRun : RunInput :=
  { apiKey := some "k", driverInit := Except.ok (), storeOpen := Except.ok (),
    objects := ["user"], includeDependent := false,
    primaryExport := fun _ => Except.ok 1, dependentExport := fun _ => Except.ok 0,
    phase3 := Except.error (), stateWrite := Except.ok () }

/-- Embeds export_duckdb_to_csv (src/main.py lines 543-598) on the staged
tables with their row counts, in SHOW TABLES order: a zero-count table is
recorded with count 0 and skipped, any other table is written through the
sink (the COPY on line 587) and recorded with its count.  Returns the count
mapping and the names written, in order.  Primary-key detection and manifest
writing affect neither the write/skip decision nor the counts and are left
out of the model. -/
def export_duckdb_to_csv : List (String × Nat) → List (String × Nat) × List String
  | [] => ([], [])
  | (name, count) :: rest =>
    let res := export_duckdb_to_csv rest
    if count = 0 then ((name, 0) :: res.1, res.2)
    else ((name, count) :: res.1, name :: res.2)

/-- Modelled from the spec: the outcome of one attempt against an endpoint.
The retry engine applied to every request is urllib3's Retry object
configured in _create_session (src/fidoo_driver/client.py lines 812-824);
the engine itself is third-party code outside this repository, so its
behavior is taken from the spec: success, a transient failure optionally
carrying an advertised retry delay, or a fatal (non-transient) failure. -/
inductive AttemptOutcome where
  | success : List JVal → AttemptOutcome
  | transient : Option Nat → AttemptOutcome
  | fatal : AttemptOutcome

/-- Modelled from the spec: the backoff delay before retry attempt n is
base * 2 ^ (n - 1). -/
def backoff_delay (base n : Nat) : Nat := base * 2 ^ (n - 1)

/-- Result of a retried fetch: the records with the waits performed, a
terminating error naming the endpoint and the number of attempts made, or an
immediate abort on a non-transient failure. -/
inductive RetryResult where
  | done : List JVal → List Nat → RetryResult
  | exhausted : String → Nat → List Nat → RetryResult
  | aborted : RetryResult

/-- Modelled from the spec: the retry loop.  `attempt` is the number of the
attempt being made, `remaining` how many attempts are still allowed; a
transient failure before the last allowed attempt waits the advertised delay
when present and otherwise base * 2 ^ (attempt - 1). -/
def retry_go (endpoint : String) (base : Nat) (outcome : Nat → AttemptOutcome) :
    Nat → Nat → List Nat → RetryResult
  | attempt, 0, waits => RetryResult.exhausted endpoint (attempt - 1) waits
  | attempt, r + 1, waits =>
    match outcome attempt with
    | AttemptOutcome.success recs => RetryResult.done recs waits
    | AttemptOutcome.fatal => RetryResult.aborted
    | AttemptOutcome.transient adv =>
      if r = 0 then RetryResult.exhausted endpoint attempt waits
      else retry_go endpoint base outcome (attempt + 1) r
        (waits ++ [adv.getD (backoff_delay base attempt)])

/-- Modelled from the spec: a fetch retried up to `budget` attempts with
exponential backoff; exhausting the budget surfaces a terminating error
naming the endpoint and the number of attempts. -/
def retry_fetch (endpoint : String) (base budget : Nat)
    (outcome : Nat → AttemptOutcome) : RetryResult :=
  retry_go endpoint base outcome 1 budget []

/-- An endpoint whose page 1 carries two records and a continuation token
and whose page 2 carries a record and no token. -/
def twoPageApi : Option String → JVal
  | none => JVal.obj [("items", JVal.arr [JVal.str "r1", JVal.str "r2"]),
      ("nextOffsetToken", JVal.str "t1")]
  | some _ => JVal.obj [("items", JVal.arr [JVal.str "r3"])]

/-- An endpoint whose first page is empty but carries a continuation token. -/
def emptyTokenApi : Option String → JVal
  | none => JVal.obj [("items", JVal.arr []), ("nextOffsetToken", JVal.str "t1")]
  | some _ => JVal.obj [("items", JVal.arr [JVal.str "r3"])]

/-- An endpoint failing transiently on every attempt, with no advertised
retry delay. -/
def alwaysTransient : Nat → AttemptOutcome := fun _ => AttemptOutcome.transient none

/-- The record batch of the concrete normalization example. -/
def userBatch : List Rec :=
  [[("id", JVal.str "u1"), ("tags", JVal.arr [JVal.str "a", JVal.str "b"]),
    ("address", JVal.obj [("city", JVal.str "Prague")])]]

/-- Satellite records the spec prescribes for a non-empty array of objects:
element i becomes parent_id, idx i, then the element fields (used only to
state the array-of-objects rule). -/
def spec_objArraySat (pkv : JVal) : Nat → List Rec → List Rec
  | _, [] => []
  | i, fs :: rest =>
    dictExtend [("parent_id", pkv), ("idx", JVal.num (Int.ofNat i))] fs ::
      spec_objArraySat pkv (i + 1) rest

/-- With duplicate-free keys, a pair in an association list determines its
value. -/
theorem key_unique {α : Type} (l : List (String × α)) (h : (l.map Prod.fst).Nodup)
    (name : String) (a b : α) (ha : (name, a) ∈ l) (hb : (name, b) ∈ l) : a = b := by
  induction l with
  | nil => cases ha
  | cons p rest ih =>
    simp only [List.map_cons, List.nodup_cons] at h
    rcases List.mem_cons.mp ha with ha1 | ha1 <;> rcases List.mem_cons.mp hb with hb1 | hb1
    · rw [← ha1] at hb1; exact (congrArg Prod.snd hb1).symm
    · rw [← ha1] at h
      exact absurd (List.mem_map_of_mem Prod.fst hb1) h.1
    · rw [← hb1] at h
      exact absurd (List.mem_map_of_mem Prod.fst ha1) h.1
    · exact ih h.2 ha1 hb1

/-- The count mapping produced by the export phase records every table with
its row count. -/
theorem export_counts_eq (tables : List (String × Nat)) :
    (export_duckdb_to_csv tables).1 = tables := by
  induction tables with
  | nil => rfl
  | cons t rest ih =>
    obtain ⟨n, c⟩ := t
    simp only [export_duckdb_to_csv]
    split
    · rename_i hc; simp [hc, ih]
    · simp [ih]

/-- The tables written by the export phase are exactly the nonzero-count
tables, in order. -/
theorem export_writes_eq (tables : List (String × Nat)) :
    (export_duckdb_to_csv tables).2 =
      (tables.filter (fun t => t.2 != 0)).map Prod.fst := by
  induction tables with
  | nil => rfl
  | cons t rest ih =>
    obtain ⟨n, c⟩ := t
    simp only [export_duckdb_to_csv]
    split
    · rename_i hc; simp [hc, ih]
    · rename_i hc; simp [List.filter_cons, hc, ih]

end Fidoo

namespace Fidoo

/-- C9: the export phase records every staged table with its row count and
writes a table through the sink exactly when its row count is nonzero; a
zero-count table is recorded with count 0 and skipped. -/
theorem export_writes_iff_nonzero (tables : List (String × Nat))
    (hnd : (tables.map Prod.fst).Nodup) (name : String) (c : Nat)
    (hmem : (name, c) ∈ tables) :
    (export_duckdb_to_csv tables).1 = tables
    ∧ (export_duckdb_to_csv tables).2 = (tables.filter (fun t => t.2 != 0)).map Prod.fst
    ∧ (name ∈ (export_duckdb_to_csv tables).2 ↔ c ≠ 0) := by
  refine ⟨export_counts_eq tables, export_writes_eq tables, ?_⟩
  rw [export_writes_eq tables]
  constructor
  · intro hin
    simp only [List.mem_map, List.mem_filter] at hin
    obtain ⟨⟨n2, c2⟩, ⟨hmem2, hne⟩, hfst⟩ := hin
    have hn2 : n2 = name := hfst
    subst hn2
    have : c2 = c := key_unique tables hnd n2 c2 c hmem2 hmem
    simp only [bne_iff_ne, ne_eq] at hne
    rw [← this]; exact hne
  · intro hc
    refine List.mem_map.mpr ⟨(name, c), List.mem_filter.mpr ⟨hmem, ?_⟩, rfl⟩
    simpa using hc

/-- Witness for export_writes_iff_nonzero: a two-table store with one empty
table records both and writes only the nonzero one. -/
theorem export_writes_iff_nonzero_witness :
    (export_duckdb_to_csv [("user", 2), ("card", 0)]).1 = [("user", 2), ("card", 0)]
    ∧ (export_duckdb_to_csv [("user", 2), ("card", 0)]).2 =
        ([("user", 2), ("card", 0)].filter (fun t => t.2 != 0)).map Prod.fst
    ∧ ("user" ∈ (export_duckdb_to_csv [("user", 2), ("card", 0)]).2 ↔ (2 : Nat) ≠ 0) :=
  export_writes_iff_nonzero [("user", 2), ("card", 0)] (by simp) "user" 2 (by simp)

/-- C10: primary key detection reads only the first record of the batch:
equal first records give equal results whatever the remaining records are,
and a first record with no key candidate yields none even when a later
record contains `id`. -/
theorem detect_primary_key_first_record_only (r : Rec) (rest rest2 : List Rec) (t : String) :
    detect_primary_key (r :: rest) t = detect_primary_key (r :: rest2) t
    ∧ detect_primary_key [[("name", JVal.str "x")], [("id", JVal.str "u")]] "user" = none :=
  ⟨rfl, by rfl⟩

/-- C8: a limit above MAX_PAGE_SIZE is rejected with ValidationError before
any request is issued, any limit at or below it is accepted with the limit
passed through, and a missing limit defaults to SAFE_DEFAULT_PAGE_SIZE,
which is below the maximum. -/
theorem read_limit_validation (l : Int) (off : Option String) :
    (MAX_PAGE_SIZE < l → read_request (some l) off = Except.error ())
    ∧ (l ≤ MAX_PAGE_SIZE → read_request (some l) off =
        Except.ok ([("limit", JVal.num l)] ++ tokenParams off))
    ∧ read_request none off =
        Except.ok ([("limit", JVal.num SAFE_DEFAULT_PAGE_SIZE)] ++ tokenParams off)
    ∧ SAFE_DEFAULT_PAGE_SIZE < MAX_PAGE_SIZE := by
  refine ⟨fun h => ?_, fun h => ?_, ?_, by norm_num [SAFE_DEFAULT_PAGE_SIZE, MAX_PAGE_SIZE]⟩
  · simp [read_request, h]
  · simp [read_request, not_lt.mpr h]
  · norm_num [read_request, MAX_PAGE_SIZE, SAFE_DEFAULT_PAGE_SIZE]

/-- Witness for read_limit_validation at limit 101 (rejected) and limit 100
(accepted). -/
theorem read_limit_validation_witness :
    read_request (some 101) none = Except.error ()
    ∧ read_request (some 100) none = Except.ok ([("limit", JVal.num 100)] ++ tokenParams none) :=
  ⟨(read_limit_validation 101 none).1 (by norm_num [MAX_PAGE_SIZE]),
   (read_limit_validation 100 none).2.1 (by norm_num [MAX_PAGE_SIZE])⟩

/-- C1: read_batched never issues a second request: the batch returned by
read is a list, so the isinstance(batch, dict) pagination checks of the loop
always fail and the loop breaks after the first non-empty batch.  On the
endpoint returning page 1 with a token and page 2 without one it yields one
batch from one request (page 2 is reachable but never requested), and an
empty-but-tokened first page terminates the fetch immediately. -/
theorem read_batched_stops_after_first_batch :
    (∀ api fuel tok, (read_batched_go api fuel tok).1.length ≤ 1) ∧
    read_batched twoPageApi 10 = ([[JVal.str "r1", JVal.str "r2"]], [none]) ∧
    read_records twoPageApi (some "t1") = [JVal.str "r3"] ∧
    read_batched emptyTokenApi 10 = ([], [none]) := by
  refine ⟨?_, rfl, rfl, rfl⟩
  intro api fuel tok
  cases fuel with
  | zero => simp [read_batched_go]
  | succ n =>
    simp only [read_batched_go, batch_is_dict, batch_complete, batch_next_token,
      Bool.false_and]
    split <;> simp

/-- Under always-transient outcomes the retry loop performs the exponential
backoff schedule and then reports the endpoint with the attempt count. -/
theorem retry_go_all_transient (ep : String) (base : Nat) :
    ∀ r attempt waits, 1 ≤ r →
      retry_go ep base alwaysTransient attempt r waits =
        RetryResult.exhausted ep (attempt + r - 1)
          (waits ++ (List.range (r - 1)).map (fun j => backoff_delay base (attempt + j))) := by
  intro r
  induction r with
  | zero => intro _ _ h; omega
  | succ n ih =>
    intro attempt waits _
    cases n with
    | zero => simp [retry_go, alwaysTransient]
    | succ m =>
      have h1 : 1 ≤ m + 1 := Nat.succ_le_succ (Nat.zero_le m)
      have step : retry_go ep base alwaysTransient attempt (m + 2) waits =
          retry_go ep base alwaysTransient (attempt + 1) (m + 1)
            (waits ++ [backoff_delay base attempt]) := by
        show (if m + 1 = 0 then RetryResult.exhausted ep attempt waits
              else retry_go ep base alwaysTransient (attempt + 1) (m + 1)
                (waits ++ [(none : Option Nat).getD (backoff_delay base attempt)])) =
          retry_go ep base alwaysTransient (attempt + 1) (m + 1)
            (waits ++ [backoff_delay base attempt])
        rw [if_neg (Nat.succ_ne_zero m)]
        rfl
      rw [step, ih (attempt + 1) _ h1]
      congr 1
      · omega
      · rw [List.append_assoc]
        congr 1
        simp only [Nat.add_sub_cancel]
        rw [List.range_succ_eq_map, List.map_cons, List.map_map]
        simp only [Nat.add_zero, List.singleton_append, List.cons.injEq]
        refine ⟨by trivial, ?_⟩
        apply List.map_congr_left
        intro j _
        simp only [Function.comp_apply]
        congr 1
        omega

/-- C7: the retry policy (modelled from the spec; the engine is urllib3's
Retry configured in _create_session with backoff_factor BACKOFF_FACTOR and
total max_retries).  The source configures backoff base 1 and default budget
3; the wait before retry attempt n is base * 2 ^ (n - 1); exhausting the
budget yields a terminating error naming the endpoint and the attempt
count — with base 1 over 3 attempts the waits are 1s then 2s; an advertised
retry delay overrides the computed backoff. -/
theorem retry_backoff_policy (ep : String) (base budget adv n : Nat) (recs : List JVal)
    (hb : 1 ≤ budget) (hb2 : 2 ≤ budget) :
    BACKOFF_FACTOR = 1 ∧ DEFAULT_MAX_RETRIES = 3
    ∧ backoff_delay base (n + 1) = base * 2 ^ n
    ∧ retry_fetch ep base budget alwaysTransient =
        RetryResult.exhausted ep budget
          ((List.range (budget - 1)).map (fun j => backoff_delay base (1 + j)))
    ∧ retry_fetch ep 1 3 alwaysTransient = RetryResult.exhausted ep 3 [1, 2]
    ∧ retry_fetch ep base budget
        (fun a => if a = 1 then AttemptOutcome.transient (some adv)
                  else AttemptOutcome.success recs) =
        RetryResult.done recs [adv] := by
  refine ⟨rfl, rfl, rfl, ?_, by rfl, ?_⟩
  · rw [retry_fetch, retry_go_all_transient ep base budget 1 [] hb]
    congr 1
    omega
  · obtain ⟨m, rfl⟩ : ∃ m, budget = m + 2 := ⟨budget - 2, by omega⟩
    simp [retry_fetch, retry_go]

/-- Witness for retry_backoff_policy at endpoint expense/get-expenses with
base 1, budget 3 and advertised delay 60. -/
theorem retry_backoff_policy_witness :
    retry_fetch "expense/get-expenses" 1 3 alwaysTransient =
      RetryResult.exhausted "expense/get-expenses" 3 [1, 2] :=
  (retry_backoff_policy "expense/get-expenses" 1 3 60 0 [] (by norm_num)
    (by norm_num)).2.2.2.2.1

/-- On an array whose elements are all objects, the spread loop succeeds and
produces exactly the prescribed satellite records. -/
theorem spreadObjItems_map (pkv : JVal) (objs : List Rec) :
    ∀ i, spreadObjItems pkv i (objs.map JVal.obj) = Except.ok (spec_objArraySat pkv i objs) := by
  induction objs with
  | nil => intro i; rfl
  | cons fs rest ih => intro i; simp [spreadObjItems, spec_objArraySat, ih]

/-- An array of primitives produces one satellite record per element. -/
theorem scalarItems_length (pkv : JVal) (elems : List JVal) :
    ∀ i, (scalarItems pkv i elems).length = elems.length := by
  induction elems with
  | nil => intro i; rfl
  | cons e rest ih => intro i; simp [scalarItems, ih]

/-- C2: the per-field rules of extract_nested.  A non-empty nested object
spawns one satellite record (parent_id then the object fields); a non-empty
array of objects spawns one satellite record per element with its 0-based
idx; a non-empty array of scalars spawns one (parent_id, idx, value) record
per element; empty objects and arrays degrade to a null scalar in the flat
record; every other value passes through unchanged; and the concrete user
example normalizes to the claimed flat row and satellite tables. -/
theorem extract_nested_field_rules (tableName k : String) (pkv v : JVal)
    (main : Rec) (nt : NT) (fields : Rec) (objs : List Rec) (elems : List JVal)
    (hf : fields.isEmpty = false) (ho : objs.isEmpty = false)
    (he : elems.isEmpty = false) (hes : elems.all isScalar = true)
    (hv : isScalar v = true) :
    procOneField tableName pkv k (JVal.obj fields) main nt =
      Except.ok (main, ntAppend nt (tableName ++ "__" ++ k)
        [dictExtend [("parent_id", pkv)] fields])
    ∧ procOneField tableName pkv k (JVal.arr (objs.map JVal.obj)) main nt =
      Except.ok (main, ntAppend nt (tableName ++ "__" ++ k) (spec_objArraySat pkv 0 objs))
    ∧ procOneField tableName pkv k (JVal.arr elems) main nt =
      Except.ok (main, ntAppend nt (tableName ++ "__" ++ k) (scalarItems pkv 0 elems))
    ∧ (scalarItems pkv 0 elems).length = elems.length
    ∧ procOneField tableName pkv k (JVal.obj []) main nt =
      Except.ok (dictInsert main k JVal.null, nt)
    ∧ procOneField tableName pkv k (JVal.arr []) main nt =
      Except.ok (dictInsert main k JVal.null, nt)
    ∧ procOneField tableName pkv k v main nt = Except.ok (dictInsert main k v, nt)
    ∧ extract_nested userBatch "user" none =
      Except.ok ([[("id", JVal.str "u1")]],
        [("user__tags",
          [[("parent_id", JVal.str "u1"), ("idx", JVal.num 0), ("value", JVal.str "a")],
           [("parent_id", JVal.str "u1"), ("idx", JVal.num 1), ("value", JVal.str "b")]]),
         ("user__address", [[("parent_id", JVal.str "u1"), ("city", JVal.str "Prague")]])]) := by
  refine ⟨?_, ?_, ?_, scalarItems_length pkv elems 0, by simp [procOneField], by
    simp [procOneField], ?_, by rfl⟩
  · simp [procOneField, hf]
  · cases objs with
    | nil => simp at ho
    | cons fs os =>
      have hsp := spreadObjItems_map pkv (fs :: os) 0
      rw [List.map_cons] at hsp
      simp [procOneField, hsp]
  · cases elems with
    | nil => simp at he
    | cons e es => cases e <;> simp_all [procOneField, isScalar]
  · cases v <;> simp_all [procOneField, isScalar]

/-- Witness for extract_nested_field_rules at the address field of the user
example. -/
theorem extract_nested_field_rules_witness :
    procOneField "user" (JVal.str "u1") "address"
      (JVal.obj [("city", JVal.str "Prague")]) [] [] =
      Except.ok ([], ntAppend [] ("user" ++ "__" ++ "address")
        [dictExtend [("parent_id", JVal.str "u1")] [("city", JVal.str "Prague")]]) :=
  (extract_nested_field_rules "user" "address" (JVal.str "u1") (JVal.num 7) [] []
    [("city", JVal.str "Prague")] [[("a", JVal.num 1)]] [JVal.str "x"]
    rfl rfl rfl rfl rfl).1

/-- A dict assignment makes the assigned key hold the assigned value. -/
theorem lookup1_dictInsert_self (r : Rec) (k : String) (v : JVal) :
    lookup1 (dictInsert r k v) k = some v := by
  induction r with
  | nil => simp [dictInsert, lookup1]
  | cons kv rest ih =>
    obtain ⟨k2, v2⟩ := kv
    by_cases h : k2 = k <;> simp [dictInsert, lookup1, h, ih]

/-- A dict assignment leaves other keys unchanged. -/
theorem lookup1_dictInsert_ne (r : Rec) (k key : String) (v : JVal) (h : k ≠ key) :
    lookup1 (dictInsert r k v) key = lookup1 r key := by
  induction r with
  | nil => simp [dictInsert, lookup1, h]
  | cons kv rest ih =>
    obtain ⟨k2, v2⟩ := kv
    by_cases h2 : k2 = k <;> by_cases h3 : k2 = key <;> simp_all [dictInsert, lookup1]

/-- Spreading fields that do not mention a key leaves that key's value
unchanged. -/
theorem getVal_dictExtend_absent (key : String) :
    ∀ (fields base : Rec), (∀ kv ∈ fields, kv.1 ≠ key) →
      getVal (dictExtend base fields) key = getVal base key := by
  intro fields
  induction fields with
  | nil => intro base _; rfl
  | cons kv rest ih =>
    intro base h
    obtain ⟨k2, v2⟩ := kv
    have hk : k2 ≠ key := h (k2, v2) (List.mem_cons_self _ _)
    have hrest : ∀ kv2 ∈ rest, kv2.1 ≠ key := fun kv2 hm => h kv2 (List.mem_cons_of_mem _ hm)
    show getVal (dictExtend (dictInsert base k2 v2) rest) key = getVal base key
    rw [ih (dictInsert base k2 v2) hrest]
    simp [getVal, lookup1_dictInsert_ne base k2 key v2 hk]

/-- Pointwise form of noParentField. -/
theorem noParentField_forall (fields : Rec) (h : noParentField fields = true) :
    ∀ kv ∈ fields, kv.1 ≠ "parent_id" := by
  intro kv hm
  have := List.all_eq_true.mp h kv hm
  simpa using this

/-- The satellite record of a nested object keeps the injected parent link
when the object has no parent_id field of its own. -/
theorem parentLink_objSat (pkv : JVal) (fields : Rec) (h : noParentField fields = true) :
    getVal (dictExtend [("parent_id", pkv)] fields) "parent_id" = pkv := by
  rw [getVal_dictExtend_absent "parent_id" fields [("parent_id", pkv)]
    (noParentField_forall fields h)]
  rfl

/-- The satellite record of an array-of-objects element keeps the injected
parent link when the element has no parent_id field of its own. -/
theorem parentLink_idxSat (pkv : JVal) (i : Nat) (fields : Rec)
    (h : noParentField fields = true) :
    getVal (dictExtend [("parent_id", pkv), ("idx", JVal.num (Int.ofNat i))] fields)
      "parent_id" = pkv := by
  rw [getVal_dictExtend_absent "parent_id" fields _ (noParentField_forall fields h)]
  rfl

/-- Every record the object-array spread produces keeps the injected parent
link, under the override guard. -/
theorem spreadObjItems_parentLink (pkv : JVal) :
    ∀ (elems : List JVal) (i : Nat) (rs : List Rec),
      (elems.all (fun e => match e with
        | JVal.obj fields => noParentField fields
        | _ => true)) = true →
      spreadObjItems pkv i elems = Except.ok rs →
      ∀ r ∈ rs, getVal r "parent_id" = pkv := by
  intro elems
  induction elems with
  | nil =>
    intro i rs _ hok r hr
    simp [spreadObjItems] at hok
    subst hok
    simp at hr
  | cons e rest ih =>
    intro i rs hall hok r hr
    cases e with
    | obj fields =>
      simp only [spreadObjItems] at hok
      cases hrec : spreadObjItems pkv (i + 1) rest with
      | error e2 => rw [hrec] at hok; cases hok
      | ok rs2 =>
        rw [hrec] at hok
        simp only [Except.ok.injEq] at hok
        subst hok
        simp only [List.all_cons, Bool.and_eq_true] at hall
        rcases List.mem_cons.mp hr with h2 | h2
        · subst h2; exact parentLink_idxSat pkv i fields hall.1
        · exact ih (i + 1) rs2 hall.2 hrec r h2
    | str s => simp [spreadObjItems] at hok
    | num n => simp [spreadObjItems] at hok
    | bool b => simp [spreadObjItems] at hok
    | null => simp [spreadObjItems] at hok
    | arr l => simp [spreadObjItems] at hok

/-- Every record the primitive-array loop produces keeps the injected parent
link. -/
theorem scalarItems_parentLink (pkv : JVal) :
    ∀ (elems : List JVal) (i : Nat), ∀ r ∈ scalarItems pkv i elems,
      getVal r "parent_id" = pkv := by
  intro elems
  induction elems with
  | nil => intro i r hr; simp [scalarItems] at hr
  | cons e rest ih =>
    intro i r hr
    rcases List.mem_cons.mp hr with h | h
    · subst h; rfl
    · exact ih (i + 1) r h

/-- Appending records to a nested table preserves a per-record property. -/
theorem ntAppend_forall {P : Rec → Prop} :
    ∀ (nt : NT) (name : String) (recs : List Rec),
      (∀ t ∈ nt, ∀ r ∈ t.2, P r) → (∀ r ∈ recs, P r) →
      ∀ t ∈ ntAppend nt name recs, ∀ r ∈ t.2, P r := by
  intro nt
  induction nt with
  | nil =>
    intro name recs _ hrecs t ht r hr
    simp [ntAppend] at ht
    subst ht
    exact hrecs r hr
  | cons p rest ih =>
    intro name recs hnt hrecs t ht r hr
    obtain ⟨n2, rs2⟩ := p
    by_cases h : n2 = name
    · simp only [ntAppend, if_pos h] at ht
      rcases List.mem_cons.mp ht with ht1 | ht1
      · subst ht1
        rcases List.mem_append.mp hr with h2 | h2
        · exact hnt (n2, rs2) (List.mem_cons_self _ _) r h2
        · exact hrecs r h2
      · exact hnt t (List.mem_cons_of_mem _ ht1) r hr
    · simp only [ntAppend, if_neg h] at ht
      rcases List.mem_cons.mp ht with ht1 | ht1
      · subst ht1; exact hnt (n2, rs2) (List.mem_cons_self _ _) r hr
      · exact ih name recs (fun t2 ht2 => hnt t2 (List.mem_cons_of_mem _ ht2)) hrecs t ht1 r hr

/-- One field step preserves the parent-link invariant of the nested-table
accumulator, under the override guard. -/
theorem procOneField_parentLink (tableName k : String) (pkv v : JVal) (main : Rec) (nt : NT)
    (hv : noParentOverride v = true)
    (hnt : ∀ t ∈ nt, ∀ r ∈ t.2, getVal r "parent_id" = pkv) :
    ∀ res, procOneField tableName pkv k v main nt = Except.ok res →
      ∀ t ∈ res.2, ∀ r ∈ t.2, getVal r "parent_id" = pkv := by
  intro res hok
  cases v with
  | obj fields =>
    by_cases hf : fields.isEmpty
    · simp only [procOneField, if_pos hf, Except.ok.injEq] at hok
      subst hok; exact hnt
    · simp only [procOneField, if_neg hf, Except.ok.injEq] at hok
      subst hok
      apply ntAppend_forall nt _ _ hnt
      intro r hr
      simp only [List.mem_singleton] at hr
      subst hr
      exact parentLink_objSat pkv fields hv
  | arr elems =>
    by_cases he : elems.isEmpty
    · simp only [procOneField, if_pos he, Except.ok.injEq] at hok
      subst hok; exact hnt
    · cases hh : elems.head? with
      | none => cases elems <;> simp_all
      | some e =>
        cases e with
        | obj fs =>
          simp only [procOneField, if_neg he, hh] at hok
          cases hsp : spreadObjItems pkv 0 elems with
          | error e2 => rw [hsp] at hok; cases hok
          | ok rs =>
            rw [hsp] at hok
            simp only [Except.ok.injEq] at hok
            subst hok
            apply ntAppend_forall nt _ _ hnt
            exact spreadObjItems_parentLink pkv elems 0 rs hv hsp
        | str s =>
          simp only [procOneField, if_neg he, hh, Except.ok.injEq] at hok
          subst hok
          exact ntAppend_forall nt _ _ hnt (scalarItems_parentLink pkv elems 0)
        | num n =>
          simp only [procOneField, if_neg he, hh, Except.ok.injEq] at hok
          subst hok
          exact ntAppend_forall nt _ _ hnt (scalarItems_parentLink pkv elems 0)
        | bool b =>
          simp only [procOneField, if_neg he, hh, Except.ok.injEq] at hok
          subst hok
          exact ntAppend_forall nt _ _ hnt (scalarItems_parentLink pkv elems 0)
        | null =>
          simp only [procOneField, if_neg he, hh, Except.ok.injEq] at hok
          subst hok
          exact ntAppend_forall nt _ _ hnt (scalarItems_parentLink pkv elems 0)
        | arr l =>
          simp only [procOneField, if_neg he, hh, Except.ok.injEq] at hok
          subst hok
          exact ntAppend_forall nt _ _ hnt (scalarItems_parentLink pkv elems 0)
  | str s => simp only [procOneField, Except.ok.injEq] at hok; subst hok; exact hnt
  | num n => simp only [procOneField, Except.ok.injEq] at hok; subst hok; exact hnt
  | bool b => simp only [procOneField, Except.ok.injEq] at hok; subst hok; exact hnt
  | null => simp only [procOneField, Except.ok.injEq] at hok; subst hok; exact hnt

/-- The field loop preserves the parent-link invariant. -/
theorem procFields_parentLink (tableName : String) (pkv : JVal) :
    ∀ (fields : List (String × JVal)) (main : Rec) (nt : NT),
      fields.all (fun kv => noParentOverride kv.2) = true →
      (∀ t ∈ nt, ∀ r ∈ t.2, getVal r "parent_id" = pkv) →
      ∀ res, procFields tableName pkv fields main nt = Except.ok res →
        ∀ t ∈ res.2, ∀ r ∈ t.2, getVal r "parent_id" = pkv := by
  intro fields
  induction fields with
  | nil =>
    intro main nt _ hnt res hok
    simp only [procFields, Except.ok.injEq] at hok
    subst hok; exact hnt
  | cons kv rest ih =>
    intro main nt hall hnt res hok
    obtain ⟨k2, v2⟩ := kv
    simp only [List.all_cons, Bool.and_eq_true] at hall
    simp only [procFields] at hok
    cases h1 : procOneField tableName pkv k2 v2 main nt with
    | error e => rw [h1] at hok; cases hok
    | ok st =>
      rw [h1] at hok
      have hst := procOneField_parentLink tableName k2 pkv v2 main nt hall.1 hnt st h1
      exact ih st.1 st.2 hall.2 hst res hok

/-- With no detected key, the record pass links every satellite record to a
null parent, under the override guard. -/
theorem procRecords_parentLink (tableName : String) :
    ∀ (records mains : List Rec) (nt : NT),
      records.all (fun r => r.all (fun kv => noParentOverride kv.2)) = true →
      (∀ t ∈ nt, ∀ r ∈ t.2, getVal r "parent_id" = JVal.null) →
      ∀ res, procRecords tableName none records mains nt = Except.ok res →
        ∀ t ∈ res.2, ∀ r ∈ t.2, getVal r "parent_id" = JVal.null := by
  intro records
  induction records with
  | nil =>
    intro mains nt _ hnt res hok
    simp only [procRecords, Except.ok.injEq] at hok
    subst hok; exact hnt
  | cons r rest ih =>
    intro mains nt hall hnt res hok
    simp only [List.all_cons, Bool.and_eq_true] at hall
    simp only [procRecords] at hok
    cases h1 : procFields tableName (pkValue none r) r [] nt with
    | error e => rw [h1] at hok; cases hok
    | ok st =>
      rw [h1] at hok
      have hst := procFields_parentLink tableName JVal.null r [] nt hall.1 hnt st h1
      exact ih (mains ++ [st.1]) st.2 hall.2 hst res hok

/-- C4 as stated is false: with no detectable key, a nested object that
itself contains a parent_id field yields a satellite record whose parent_id
is 5, not null. -/
theorem null_parent_link_counterexample :
    detect_primary_key [[("a", JVal.obj [("parent_id", JVal.num 5)])]] "t" = none
    ∧ extract_nested [[("a", JVal.obj [("parent_id", JVal.num 5)])]] "t" none =
      Except.ok ([[]], [("t__a", [[("parent_id", JVal.num 5)]])])
    ∧ isNull (getVal [("parent_id", JVal.num 5)] "parent_id") = false :=
  ⟨by rfl, by rfl, by rfl⟩

/-- C4 (amended): the key is inferred by testing, in this exact order,
`{tableName}Id`, `{tableName rstrip s}Id`, `id`, `Id` against the first
record, then the first key of the first record ending in `Id`, and an empty
batch has no key; when no key is detected the pass spawns every satellite
record with a null parent_id, provided no spawning nested object or array
element itself contains a parent_id field (such a field overrides the null
link). -/
theorem detect_primary_key_order_and_null_link (tableName : String) (first : Rec)
    (rest records : List Rec)
    (hdet : detect_primary_key records tableName = none)
    (hnp : records.all (fun r => r.all (fun kv => noParentOverride kv.2)) = true) :
    (hasField first (tableName ++ "Id") = true →
      detect_primary_key (first :: rest) tableName = some (tableName ++ "Id"))
    ∧ (hasField first (tableName ++ "Id") = false →
       hasField first (rstripS tableName ++ "Id") = true →
      detect_primary_key (first :: rest) tableName = some (rstripS tableName ++ "Id"))
    ∧ (hasField first (tableName ++ "Id") = false →
       hasField first (rstripS tableName ++ "Id") = false →
       hasField first "id" = true →
      detect_primary_key (first :: rest) tableName = some "id")
    ∧ (hasField first (tableName ++ "Id") = false →
       hasField first (rstripS tableName ++ "Id") = false →
       hasField first "id" = false → hasField first "Id" = true →
      detect_primary_key (first :: rest) tableName = some "Id")
    ∧ (hasField first (tableName ++ "Id") = false →
       hasField first (rstripS tableName ++ "Id") = false →
       hasField first "id" = false → hasField first "Id" = false →
      detect_primary_key (first :: rest) tableName =
        (first.map Prod.fst).find? (fun k => strEndsWith k "Id"))
    ∧ detect_primary_key [] tableName = none
    ∧ (∀ res, procRecords tableName (resolved_pk records tableName none) records [] [] =
          Except.ok res →
        ∀ t ∈ res.2, ∀ r ∈ t.2, getVal r "parent_id" = JVal.null) := by
  refine ⟨?_, ?_, ?_, ?_, ?_, rfl, ?_⟩
  · intro h1; simp [detect_primary_key, List.find?, h1]
  · intro h1 h2; simp [detect_primary_key, List.find?, h1, h2]
  · intro h1 h2 h3; simp [detect_primary_key, List.find?, h1, h2, h3]
  · intro h1 h2 h3 h4; simp [detect_primary_key, List.find?, h1, h2, h3, h4]
  · intro h1 h2 h3 h4; simp [detect_primary_key, List.find?, h1, h2, h3, h4]
  · intro res hok
    rw [show resolved_pk records tableName none = none by
      simp [resolved_pk, hdet]] at hok
    exact procRecords_parentLink tableName records [] [] hnp (by simp) res hok

/-- Witness for detect_primary_key_order_and_null_link: the fallback order
on a record holding only id, and the null parent link of the satellite
spawned from a keyless record. -/
theorem detect_primary_key_order_and_null_link_witness :
    detect_primary_key ([("id", JVal.str "u1")] :: []) "t" = some "id"
    ∧ getVal [("parent_id", JVal.null), ("b", JVal.num 1)] "parent_id" = JVal.null := by
  have h := detect_primary_key_order_and_null_link "t" [("id", JVal.str "u1")] []
    [[("a", JVal.obj [("b", JVal.num 1)])]] (by rfl) (by rfl)
  refine ⟨h.2.2.1 rfl rfl rfl, ?_⟩
  have h2 := h.2.2.2.2.2.2
    (([[]] : List Rec), [("t__a", [[("parent_id", JVal.null), ("b", JVal.num 1)]])]) (by rfl)
  exact h2 ("t__a", [[("parent_id", JVal.null), ("b", JVal.num 1)]]) (by simp)
    [("parent_id", JVal.null), ("b", JVal.num 1)] (by simp)

/-- The imperative accumulation loop of the dependent resolver equals the
declarative concatenation of the per-id tagged contributions, with the
successfully fetched ids recorded in order. -/
theorem depFold_eq (cfg : DepConfig) (fetch : JVal → Except Unit (List Rec)) :
    ∀ (ids : List JVal) (acc : List Rec × List JVal),
      ids.foldl (depStep cfg fetch) acc =
        (acc.1 ++ (ids.map (taggedOk cfg fetch)).flatten,
         acc.2 ++ ids.filter (fun idv => (fetch idv).isOk)) := by
  intro ids
  induction ids with
  | nil => intro acc; simp
  | cons idv rest ih =>
    intro acc
    simp only [List.foldl_cons, List.map_cons, List.flatten_cons, List.filter_cons]
    rw [ih]
    cases hf : fetch idv with
    | error e =>
      simp [depStep, taggedOk, hf, Except.isOk, Except.toBool]
    | ok recs =>
      by_cases hr : recs.isEmpty
      · have : recs = [] := by simpa using hr
        subst this
        simp [depStep, taggedOk, hf, Except.isOk, Except.toBool]
      · simp [depStep, taggedOk, hf, hr, Except.isOk, Except.toBool]

/-- C5: the dependent resolver skips a missing source table with a zero
count; otherwise it fetches each distinct non-null source id exactly once,
in order, tags every fetched record with `_source_{sourceKeyField}` equal to
its id, skips failed ids without aborting the remaining ones, and merges the
successful ids' tagged records in order (returning a zero count when nothing
was fetched). -/
theorem export_dependent_resolver (store : Store) (cfg : DepConfig)
    (fetch : JVal → Except Unit (List Rec)) (rows : List Rec)
    (hsrc : alistFind store cfg.source_table = some rows)
    (hne : (depIds rows cfg).isEmpty = false) :
    (∀ store2, alistFind store2 cfg.source_table = none →
      export_dependent store2 cfg fetch = none)
    ∧ export_dependent store cfg fetch =
        (if (((depIds rows cfg).map (taggedOk cfg fetch)).flatten).isEmpty then none
         else some (((depIds rows cfg).map (taggedOk cfg fetch)).flatten,
              (depIds rows cfg).filter (fun idv => (fetch idv).isOk)))
    ∧ (∀ r ∈ ((depIds rows cfg).map (taggedOk cfg fetch)).flatten,
        ∃ idv ∈ depIds rows cfg,
          lookup1 r ("_source_" ++ cfg.source_id_field) = some idv) := by
  refine ⟨?_, ?_, ?_⟩
  · intro store2 h2
    simp [export_dependent, h2]
  · simp only [export_dependent, hsrc, hne, Bool.false_eq_true, if_false]
    rw [depFold_eq cfg fetch (depIds rows cfg) ([], [])]
    simp
  · intro r hr
    rcases List.mem_flatten.mp hr with ⟨l, hl, hrl⟩
    rcases List.mem_map.mp hl with ⟨idv, hidv, rfl⟩
    refine ⟨idv, hidv, ?_⟩
    unfold taggedOk at hrl
    cases hf : fetch idv with
    | error e => rw [hf] at hrl; simp at hrl
    | ok recs =>
      rw [hf] at hrl
      rcases List.mem_map.mp hrl with ⟨r0, _, rfl⟩
      exact lookup1_dictInsert_self r0 ("_source_" ++ cfg.source_id_field) idv

/-- Witness for export_dependent_resolver: three source rows with two
distinct ids, the second id failing to fetch. -/
theorem export_dependent_resolver_witness :
    export_dependent
      [("expense", [[("expenseId", JVal.str "e1")], [("expenseId", JVal.str "e2")],
        [("expenseId", JVal.str "e1")]])]
      ⟨"expense/get-expense-items", "expense", "expenseId", "expenseId"⟩
      (fun idv => if beqV idv (JVal.str "e2") then Except.error ()
                  else Except.ok [[("amount", JVal.num 10)]]) =
      (if ((depIds [[("expenseId", JVal.str "e1")], [("expenseId", JVal.str "e2")],
              [("expenseId", JVal.str "e1")]]
            ⟨"expense/get-expense-items", "expense", "expenseId", "expenseId"⟩).map
          (taggedOk ⟨"expense/get-expense-items", "expense", "expenseId", "expenseId"⟩
            (fun idv => if beqV idv (JVal.str "e2") then Except.error ()
                        else Except.ok [[("amount", JVal.num 10)]]))).flatten.isEmpty
       then none
       else some (((depIds [[("expenseId", JVal.str "e1")], [("expenseId", JVal.str "e2")],
              [("expenseId", JVal.str "e1")]]
            ⟨"expense/get-expense-items", "expense", "expenseId", "expenseId"⟩).map
          (taggedOk ⟨"expense/get-expense-items", "expense", "expenseId", "expenseId"⟩
            (fun idv => if beqV idv (JVal.str "e2") then Except.error ()
                        else Except.ok [[("amount", JVal.num 10)]]))).flatten,
          (depIds [[("expenseId", JVal.str "e1")], [("expenseId", JVal.str "e2")],
              [("expenseId", JVal.str "e1")]]
            ⟨"expense/get-expense-items", "expense", "expenseId", "expenseId"⟩).filter
            (fun idv => ((if beqV idv (JVal.str "e2") then Except.error ()
                          else Except.ok [[("amount", JVal.num 10)]]) :
                Except Unit (List Rec)).isOk))) :=
  (export_dependent_resolver
    [("expense", [[("expenseId", JVal.str "e1")], [("expenseId", JVal.str "e2")],
      [("expenseId", JVal.str "e1")]])]
    ⟨"expense/get-expense-items", "expense", "expenseId", "expenseId"⟩
    (fun idv => if beqV idv (JVal.str "e2") then Except.error ()
                else Except.ok [[("amount", JVal.num 10)]])
    [[("expenseId", JVal.str "e1")], [("expenseId", JVal.str "e2")],
      [("expenseId", JVal.str "e1")]] (by rfl) (by rfl)).2.1

/-- Setting a count makes that key hold the new count. -/
theorem alistFind_setCount_self (counts : List (String × Nat)) (k : String) (n : Nat) :
    alistFind (setCount counts k n) k = some n := by
  induction counts with
  | nil => simp [setCount, alistFind]
  | cons p rest ih =>
    obtain ⟨k2, m⟩ := p
    by_cases h : k2 = k <;> simp [setCount, alistFind, h, ih]

/-- Setting a count leaves other keys unchanged. -/
theorem alistFind_setCount_ne (counts : List (String × Nat)) (k key : String) (n : Nat)
    (h : k ≠ key) : alistFind (setCount counts k n) key = alistFind counts key := by
  induction counts with
  | nil => simp [setCount, alistFind, h]
  | cons p rest ih =>
    obtain ⟨k2, m⟩ := p
    by_cases h2 : k2 = k <;> by_cases h3 : k2 = key <;> simp_all [setCount, alistFind]

/-- Phase 2 leaves count entries alone whose key is no dependent object. -/
theorem phase2_preserve (objects : List String) (exportD : String → Except Unit Nat) :
    ∀ (cfgs : List (String × String)) (counts : List (String × Nat)) (key : String),
      (∀ c ∈ cfgs, c.1 ≠ key) →
      alistFind (phase2 objects exportD cfgs counts) key = alistFind counts key := by
  intro cfgs
  induction cfgs with
  | nil => intro counts key _; rfl
  | cons c rest ih =>
    intro counts key hne
    obtain ⟨d, s⟩ := c
    have hd : d ≠ key := hne (d, s) (List.mem_cons_self _ _)
    have hrest : ∀ c2 ∈ rest, c2.1 ≠ key := fun c2 hm => hne c2 (List.mem_cons_of_mem _ hm)
    by_cases hs : objects.contains s = true
    · cases he : exportD d with
      | ok n =>
        simp only [phase2, hs, if_true, he]
        rw [ih (setCount counts d n) key hrest, alistFind_setCount_ne counts d key n hd]
      | error e =>
        simp only [phase2, hs, if_true, he]
        rw [ih (setCount counts d 0) key hrest, alistFind_setCount_ne counts d key 0 hd]
    · simp only [phase2, hs]
      rw [if_neg (by simp [hs])]
      exact ih counts key hrest

/-- A failing primary export leaves its object recorded with count 0 at the
end of phase 1, whether it was still to be processed or already recorded. -/
theorem phase1_zero (exportP : String → Except Unit Nat) (obj : String)
    (hprim : PRIMARY_OBJECTS.contains obj = true)
    (herr : exportP obj = Except.error ()) :
    ∀ (objs : List String) (counts : List (String × Nat)),
      (obj ∈ objs ∨ alistFind counts obj = some 0) →
      alistFind (phase1 exportP objs counts) obj = some 0 := by
  intro objs
  induction objs with
  | nil =>
    intro counts h
    rcases h with h | h
    · cases h
    · exact h
  | cons o rest ih =>
    intro counts h
    by_cases hp : PRIMARY_OBJECTS.contains o = true
    · cases he : exportP o with
      | ok n =>
        by_cases ho : o = obj
        · subst ho; rw [he] at herr; cases herr
        · simp only [phase1, hp, if_true, he]
          apply ih
          rcases h with h | h
          · rcases List.mem_cons.mp h with h2 | h2
            · exact absurd h2.symm ho
            · exact Or.inl h2
          · exact Or.inr (by rw [alistFind_setCount_ne counts o obj n ho]; exact h)
      | error e =>
        simp only [phase1, hp, if_true, he]
        by_cases ho : o = obj
        · subst ho
          exact ih (setCount counts o 0) (Or.inr (alistFind_setCount_self counts o 0))
        · apply ih
          rcases h with h | h
          · rcases List.mem_cons.mp h with h2 | h2
            · exact absurd h2.symm ho
            · exact Or.inl h2
          · exact Or.inr (by rw [alistFind_setCount_ne counts o obj 0 ho]; exact h)
    · by_cases ho : o = obj
      · subst ho; exact absurd hprim hp
      · simp only [phase1]
        rw [if_neg (by simpa using hp)]
        apply ih
        rcases h with h | h
        · rcases List.mem_cons.mp h with h2 | h2
          · exact absurd h2.symm ho
          · exact Or.inl h2
        · exact Or.inr h

/-- A failing dependent export whose source was requested leaves its object
recorded with count 0 at the end of phase 2. -/
theorem phase2_zero (objects : List String) (exportD : String → Except Unit Nat)
    (dobj : String) (herr : exportD dobj = Except.error ()) :
    ∀ (cfgs : List (String × String)) (counts : List (String × Nat)),
      ((∃ src, (dobj, src) ∈ cfgs ∧ objects.contains src = true)
        ∨ alistFind counts dobj = some 0) →
      alistFind (phase2 objects exportD cfgs counts) dobj = some 0 := by
  intro cfgs
  induction cfgs with
  | nil =>
    intro counts h
    rcases h with ⟨src, hmem, _⟩ | h
    · cases hmem
    · exact h
  | cons c rest ih =>
    intro counts h
    obtain ⟨d, s⟩ := c
    by_cases hs : objects.contains s = true
    · cases he : exportD d with
      | ok n =>
        by_cases hd : d = dobj
        · subst hd; rw [he] at herr; cases herr
        · simp only [phase2, hs, if_true, he]
          apply ih
          rcases h with ⟨src, hmem, hc⟩ | h
          · rcases List.mem_cons.mp hmem with h2 | h2
            · exact absurd (congrArg Prod.fst h2).symm hd
            · exact Or.inl ⟨src, h2, hc⟩
          · exact Or.inr (by rw [alistFind_setCount_ne counts d dobj n hd]; exact h)
      | error e =>
        simp only [phase2, hs, if_true, he]
        by_cases hd : d = dobj
        · subst hd
          exact ih (setCount counts d 0) (Or.inr (alistFind_setCount_self counts d 0))
        · apply ih
          rcases h with ⟨src, hmem, hc⟩ | h
          · rcases List.mem_cons.mp hmem with h2 | h2
            · exact absurd (congrArg Prod.fst h2).symm hd
            · exact Or.inl ⟨src, h2, hc⟩
          · exact Or.inr (by rw [alistFind_setCount_ne counts d dobj 0 hd]; exact h)
    · simp only [phase2]
      rw [if_neg (by simpa using hs)]
      apply ih
      rcases h with ⟨src, hmem, hc⟩ | h
      · rcases List.mem_cons.mp hmem with h2 | h2
        · have hss : s = src := (congrArg Prod.snd h2).symm
          rw [← hss] at hc
          exact absurd hc hs
        · exact Or.inl ⟨src, h2, hc⟩
      · exact Or.inr h

/-- A primary object type is never a dependent object type. -/
theorem prim_not_dep (obj : String) (hprim : PRIMARY_OBJECTS.contains obj = true) :
    ∀ c ∈ DEPENDENT_CONFIGS, c.1 ≠ obj := by
  intro c hc
  have hmem : obj ∈ PRIMARY_OBJECTS := by simpa using hprim
  simp [PRIMARY_OBJECTS] at hmem
  simp [DEPENDENT_CONFIGS] at hc
  rcases hc with rfl | rfl | rfl
  · rcases hmem with rfl | rfl | rfl | rfl | rfl | rfl | rfl | rfl | rfl | rfl | rfl | rfl |
      rfl | rfl | rfl | rfl <;> decide
  · rcases hmem with rfl | rfl | rfl | rfl | rfl | rfl | rfl | rfl | rfl | rfl | rfl | rfl |
      rfl | rfl | rfl | rfl <;> decide
  · rcases hmem with rfl | rfl | rfl | rfl | rfl | rfl | rfl | rfl | rfl | rfl | rfl | rfl |
      rfl | rfl | rfl | rfl <;> decide

/-- C6 (amended): per-object failures in phases 1 and 2 are caught, recorded
as count 0 and do not stop the run; the run as a whole fails exactly when
configuration (the api key), driver construction, staging-store opening, the
export phase, or the state write fails. -/
theorem main_run_fault_policy (inp : RunInput) (counts : List (String × Nat))
    (obj dobj src : String)
    (hrun : main_run inp = Except.ok counts)
    (hobj : obj ∈ inp.objects) (hprim : PRIMARY_OBJECTS.contains obj = true)
    (hpe : inp.primaryExport obj = Except.error ())
    (hdep : (dobj, src) ∈ DEPENDENT_CONFIGS) (hincl : inp.includeDependent = true)
    (hsrc : inp.objects.contains src = true)
    (hde : inp.dependentExport dobj = Except.error ()) :
    alistFind counts obj = some 0
    ∧ alistFind counts dobj = some 0
    ∧ (∀ inp2 : RunInput, (main_run inp2 = Except.error ()) ↔
        (inp2.apiKey = none ∨ inp2.driverInit = Except.error ()
         ∨ inp2.storeOpen = Except.error () ∨ inp2.phase3 = Except.error ()
         ∨ inp2.stateWrite = Except.error ())) := by
  have hcounts : counts = phase2 inp.objects inp.dependentExport DEPENDENT_CONFIGS
      (phase1 inp.primaryExport inp.objects []) := by
    cases hA : inp.apiKey with
    | none => rw [main_run, hA] at hrun; cases hrun
    | some key =>
      cases hD : inp.driverInit with
      | error e => rw [main_run, hA, hD] at hrun; cases hrun
      | ok u1 =>
        cases hS : inp.storeOpen with
        | error e => rw [main_run, hA, hD, hS] at hrun; cases hrun
        | ok u2 =>
          cases hP : inp.phase3 with
          | error e => rw [main_run, hA, hD, hS] at hrun; simp [hincl, hP] at hrun
          | ok l =>
            cases hW : inp.stateWrite with
            | error e => rw [main_run, hA, hD, hS] at hrun; simp [hincl, hP, hW] at hrun
            | ok u3 =>
              rw [main_run, hA, hD, hS] at hrun
              simp only [hincl, if_true, hP, hW, Except.ok.injEq] at hrun
              exact hrun.symm
  refine ⟨?_, ?_, ?_⟩
  · rw [hcounts,
      phase2_preserve inp.objects inp.dependentExport DEPENDENT_CONFIGS _ obj
        (prim_not_dep obj hprim)]
    exact phase1_zero inp.primaryExport obj hprim hpe inp.objects [] (Or.inl hobj)
  · rw [hcounts]
    exact phase2_zero inp.objects inp.dependentExport dobj hde DEPENDENT_CONFIGS _
      (Or.inl ⟨src, hdep, hsrc⟩)
  · intro inp2
    cases hA : inp2.apiKey <;> cases hD : inp2.driverInit <;> cases hS : inp2.storeOpen <;>
      cases hP : inp2.phase3 <;> cases hW : inp2.stateWrite <;>
      simp_all [main_run]

/-- Witness for main_run_fault_policy: a run requesting user and expense
where both the user export and the expense_item resolution fail, everything
else succeeding. -/
theorem main_run_fault_policy_witness :
    alistFind (phase2 ["user", "expense"]
        (fun _ => Except.error ()) DEPENDENT_CONFIGS
        (phase1 (fun o => if o = "user" then Except.error () else Except.ok 2)
          ["user", "expense"] [])) "user" = some 0 := by
  have h := main_run_fault_policy
    { apiKey := some "k", driverInit := Except.ok (), storeOpen := Except.ok (),
      objects := ["user", "expense"], includeDependent := true,
      primaryExport := fun o => if o = "user" then Except.error () else Except.ok 2,
      dependentExport := fun _ => Except.error (),
      phase3 := Except.ok [], stateWrite := Except.ok () }
    (phase2 ["user", "expense"] (fun _ => Except.error ()) DEPENDENT_CONFIGS
      (phase1 (fun o => if o = "user" then Except.error () else Except.ok 2)
        ["user", "expense"] []))
    "user" "expense_item" "expense" (by rfl) (by simp) (by rfl) (by simp)
    (by simp [DEPENDENT_CONFIGS]) (by rfl) (by rfl) (by rfl)
  exact h.1

/-- C6 as stated is false: a run whose driver construction succeeds still
fails as a whole when the export phase raises. -/
theorem main_run_phase3_counterexample :
    phase3FailRun.apiKey = some "k" ∧ phase3FailRun.driverInit = Except.ok ()
    ∧ phase3FailRun.storeOpen = Except.ok ()
    ∧ main_run phase3FailRun = Except.error () :=
  ⟨rfl, rfl, rfl, by rfl⟩

/-- The record pass on the self-reproducing satellite spawns a table holding
the very same record, one table-name level deeper. -/
theorem badSat_pass (name : String) :
    procRecords name (resolved_pk [badSat] name (some "parent_id")) [badSat] [] [] =
      Except.ok ([[("x", JVal.num 1)]], [(name ++ "__" ++ "parent_id", [badSat])]) := rfl

/-- One call on the self-reproducing satellite reduces to the recursive call
on the same record, one table-name level deeper. -/
theorem badSat_step (n : Nat) (name : String)
    (h : extract_nested_fuel n [badSat] (name ++ "__" ++ "parent_id") (some "parent_id") =
      Except.error ExtractErr.fuelOut) :
    extract_nested_fuel (n + 1) [badSat] name (some "parent_id") =
      Except.error ExtractErr.fuelOut := by
  rw [extract_nested_fuel]
  simp only [badSat_pass name, List.isEmpty_cons, Bool.false_eq_true, if_false,
    recurse_tables, h]

/-- The self-reproducing satellite exhausts any amount of fuel. -/
theorem badSat_diverges :
    ∀ (fuel : Nat) (name : String),
      extract_nested_fuel fuel [badSat] name (some "parent_id") =
        Except.error ExtractErr.fuelOut := by
  intro fuel
  induction fuel with
  | zero => intro name; rfl
  | succ n ih =>
    intro name
    exact badSat_step n name (ih (name ++ "__" ++ "parent_id"))

/-- The record pass on badBatch spawns a table holding the self-reproducing
satellite. -/
theorem badBatch_pass :
    procRecords "t" (resolved_pk badBatch "t" none) badBatch [] [] =
      Except.ok ([[]], [("t" ++ "__" ++ "id", [badSat])]) := rfl

theorem badBatch_nonempty : badBatch.isEmpty = false := rfl

/-- One call on badBatch reduces to the recursive call on the
self-reproducing satellite. -/
theorem badBatch_step (n : Nat)
    (h : extract_nested_fuel n [badSat] ("t" ++ "__" ++ "id") (some "parent_id") =
      Except.error ExtractErr.fuelOut) :
    extract_nested_fuel (n + 1) badBatch "t" none = Except.error ExtractErr.fuelOut := by
  rw [extract_nested_fuel]
  simp only [badBatch_nonempty, Bool.false_eq_true, if_false, badBatch_pass,
    recurse_tables, h]

/-- C3 as stated is false: on the batch whose primary-key field holds a
non-empty object, extract_nested never returns — every fuel bound is
exhausted, mirroring the unbounded recursion of the Python code (each level
spawns a satellite identical to its parent). -/
theorem extract_nested_divergence_counterexample :
    ¬ ∃ (out : List Rec × NT) (fuel : Nat),
      extract_nested_fuel fuel badBatch "t" none = Except.ok out := by
  rintro ⟨out, fuel, h⟩
  cases fuel with
  | zero =>
    rw [show extract_nested_fuel 0 badBatch "t" none = Except.error ExtractErr.fuelOut
      from rfl] at h
    cases h
  | succ n =>
    rw [badBatch_step n (badSat_diverges n ("t" ++ "__" ++ "id"))] at h
    cases h

/-- Inserting a scalar keeps a record flat. -/
theorem flatRec_dictInsert (k : String) (v : JVal) (hv : isScalar v = true) :
    ∀ r : Rec, flatRec r = true → flatRec (dictInsert r k v) = true := by
  intro r
  induction r with
  | nil => intro _; simp [dictInsert, flatRec, hv]
  | cons kv rest ih =>
    intro hr
    obtain ⟨k2, v2⟩ := kv
    simp only [flatRec, List.all_cons, Bool.and_eq_true] at hr
    by_cases h : k2 = k
    · simp only [dictInsert, if_pos h, flatRec, List.all_cons, Bool.and_eq_true]
      exact ⟨hv, hr.2⟩
    · simp only [dictInsert, if_neg h, flatRec, List.all_cons, Bool.and_eq_true]
      exact ⟨hr.1, ih hr.2⟩

/-- One field step keeps the flat record flat: only scalars and nulls are
ever inserted into it. -/
theorem procOneField_mainFlat (tableName k : String) (pkv v : JVal) (main : Rec) (nt : NT)
    (hm : flatRec main = true) :
    ∀ res, procOneField tableName pkv k v main nt = Except.ok res →
      flatRec res.1 = true := by
  intro res hok
  cases v with
  | obj fields =>
    by_cases hf : fields.isEmpty
    · simp only [procOneField, if_pos hf, Except.ok.injEq] at hok
      subst hok
      exact flatRec_dictInsert k JVal.null rfl main hm
    · simp only [procOneField, if_neg hf, Except.ok.injEq] at hok
      subst hok; exact hm
  | arr elems =>
    by_cases he : elems.isEmpty
    · simp only [procOneField, if_pos he, Except.ok.injEq] at hok
      subst hok
      exact flatRec_dictInsert k JVal.null rfl main hm
    · cases hh : elems.head? with
      | none => cases elems <;> simp_all
      | some e =>
        cases e with
        | obj fs =>
          simp only [procOneField, if_neg he, hh] at hok
          cases hsp : spreadObjItems pkv 0 elems with
          | error e2 => rw [hsp] at hok; cases hok
          | ok rs =>
            rw [hsp] at hok
            simp only [Except.ok.injEq] at hok
            subst hok; exact hm
        | str s =>
          simp only [procOneField, if_neg he, hh, Except.ok.injEq] at hok
          subst hok; exact hm
        | num n2 =>
          simp only [procOneField, if_neg he, hh, Except.ok.injEq] at hok
          subst hok; exact hm
        | bool b =>
          simp only [procOneField, if_neg he, hh, Except.ok.injEq] at hok
          subst hok; exact hm
        | null =>
          simp only [procOneField, if_neg he, hh, Except.ok.injEq] at hok
          subst hok; exact hm
        | arr l =>
          simp only [procOneField, if_neg he, hh, Except.ok.injEq] at hok
          subst hok; exact hm
  | str s =>
    simp only [procOneField, Except.ok.injEq] at hok
    subst hok; exact flatRec_dictInsert k (JVal.str s) rfl main hm
  | num n2 =>
    simp only [procOneField, Except.ok.injEq] at hok
    subst hok; exact flatRec_dictInsert k (JVal.num n2) rfl main hm
  | bool b =>
    simp only [procOneField, Except.ok.injEq] at hok
    subst hok; exact flatRec_dictInsert k (JVal.bool b) rfl main hm
  | null =>
    simp only [procOneField, Except.ok.injEq] at hok
    subst hok; exact flatRec_dictInsert k JVal.null rfl main hm

/-- The field loop keeps the flat record flat. -/
theorem procFields_mainFlat (tableName : String) (pkv : JVal) :
    ∀ (fields : List (String × JVal)) (main : Rec) (nt : NT),
      flatRec main = true →
      ∀ res, procFields tableName pkv fields main nt = Except.ok res →
        flatRec res.1 = true := by
  intro fields
  induction fields with
  | nil =>
    intro main nt hm res hok
    simp only [procFields, Except.ok.injEq] at hok
    subst hok; exact hm
  | cons kv rest ih =>
    intro main nt hm res hok
    obtain ⟨k2, v2⟩ := kv
    simp only [procFields] at hok
    cases h1 : procOneField tableName pkv k2 v2 main nt with
    | error e => rw [h1] at hok; cases hok
    | ok st =>
      rw [h1] at hok
      exact ih st.1 st.2 (procOneField_mainFlat tableName k2 pkv v2 main nt hm st h1) res hok

/-- Every main record the record loop produces is flat. -/
theorem procRecords_mainsFlat (tableName : String) (pk : Option String) :
    ∀ (records mains : List Rec) (nt : NT),
      (∀ m ∈ mains, flatRec m = true) →
      ∀ res, procRecords tableName pk records mains nt = Except.ok res →
        ∀ m ∈ res.1, flatRec m = true := by
  intro records
  induction records with
  | nil =>
    intro mains nt hm res hok
    simp only [procRecords, Except.ok.injEq] at hok
    subst hok; exact hm
  | cons r rest ih =>
    intro mains nt hm res hok
    simp only [procRecords] at hok
    cases h1 : procFields tableName (pkValue pk r) r [] nt with
    | error e => rw [h1] at hok; cases hok
    | ok st =>
      rw [h1] at hok
      refine ih (mains ++ [st.1]) st.2 ?_ res hok
      intro m hmem
      rcases List.mem_append.mp hmem with h2 | h2
      · exact hm m h2
      · rw [List.mem_singleton.mp h2]
        exact procFields_mainFlat tableName (pkValue pk r) r [] nt rfl st h1

/-- Replacing a nested table preserves a per-record property. -/
theorem ntSet_forall {P : Rec → Prop} :
    ∀ (acc : NT) (name : String) (recs : List Rec),
      (∀ t ∈ acc, ∀ r ∈ t.2, P r) → (∀ r ∈ recs, P r) →
      ∀ t ∈ ntSet acc name recs, ∀ r ∈ t.2, P r := by
  intro acc
  induction acc with
  | nil =>
    intro name recs _ hrecs t ht r hr
    simp [ntSet] at ht
    subst ht
    exact hrecs r hr
  | cons p rest ih =>
    intro name recs hacc hrecs t ht r hr
    obtain ⟨n2, rs2⟩ := p
    by_cases h : n2 = name
    · simp only [ntSet, if_pos h] at ht
      rcases List.mem_cons.mp ht with ht1 | ht1
      · subst ht1; exact hrecs r hr
      · exact hacc t (List.mem_cons_of_mem _ ht1) r hr
    · simp only [ntSet, if_neg h] at ht
      rcases List.mem_cons.mp ht with ht1 | ht1
      · subst ht1; exact hacc (n2, rs2) (List.mem_cons_self _ _) r hr
      · exact ih name recs (fun t2 ht2 => hacc t2 (List.mem_cons_of_mem _ ht2)) hrecs t ht1 r hr

/-- Dict-update of a nested-table map preserves a per-record property. -/
theorem ntUpdateAll_forall {P : Rec → Prop} :
    ∀ (upd base : NT),
      (∀ t ∈ base, ∀ r ∈ t.2, P r) → (∀ t ∈ upd, ∀ r ∈ t.2, P r) →
      ∀ t ∈ ntUpdateAll base upd, ∀ r ∈ t.2, P r := by
  intro upd
  induction upd with
  | nil => intro base hb _ t ht; exact hb t ht
  | cons u rest ih =>
    intro base hb hu t ht
    obtain ⟨name, recs⟩ := u
    exact ih (ntSet base name recs)
      (ntSet_forall base name recs hb (hu (name, recs) (List.mem_cons_self _ _)))
      (fun t2 ht2 => hu t2 (List.mem_cons_of_mem _ ht2)) t ht

/-- If every recursive result is fully flat, assembling the nested tables
yields fully flat tables. -/
theorem recurse_tables_flat (f : List Rec → String → Except ExtractErr (List Rec × NT))
    (hf : ∀ recs name res2, f recs name = Except.ok res2 →
      (∀ r ∈ res2.1, flatRec r = true) ∧ (∀ t ∈ res2.2, ∀ r ∈ t.2, flatRec r = true)) :
    ∀ (nt acc : NT), (∀ t ∈ acc, ∀ r ∈ t.2, flatRec r = true) →
      ∀ res, recurse_tables f nt acc = Except.ok res →
        ∀ t ∈ res, ∀ r ∈ t.2, flatRec r = true := by
  intro nt
  induction nt with
  | nil =>
    intro acc hacc res hok
    simp only [recurse_tables, Except.ok.injEq] at hok
    subst hok; exact hacc
  | cons p rest ih =>
    intro acc hacc res hok
    obtain ⟨name, recs⟩ := p
    simp only [recurse_tables] at hok
    cases h1 : f recs name with
    | error e => rw [h1] at hok; cases hok
    | ok out =>
      rw [h1] at hok
      have hout := hf recs name out h1
      exact ih (ntUpdateAll (ntSet acc name out.1) out.2)
        (ntUpdateAll_forall out.2 (ntSet acc name out.1)
          (ntSet_forall acc name out.1 hacc hout.1) hout.2) res hok

/-- Whenever the embedded extract_nested returns, every main record and
every satellite record is fully flat. -/
theorem extract_flat_aux :
    ∀ (fuel : Nat) (records : List Rec) (tableName : String) (pk : Option String)
      (res : List Rec × NT),
      extract_nested_fuel fuel records tableName pk = Except.ok res →
      (∀ r ∈ res.1, flatRec r = true) ∧ (∀ t ∈ res.2, ∀ r ∈ t.2, flatRec r = true) := by
  intro fuel
  induction fuel with
  | zero =>
    intro records tableName pk res h
    by_cases hre : records.isEmpty
    · simp only [extract_nested_fuel, if_pos hre, Except.ok.injEq] at h
      subst h
      exact ⟨by simp, by simp⟩
    · simp only [extract_nested_fuel, if_neg hre] at h
      cases h
  | succ n ih =>
    intro records tableName pk res h
    rw [extract_nested_fuel] at h
    by_cases hre : records.isEmpty
    · rw [if_pos hre] at h
      simp only [Except.ok.injEq] at h
      subst h
      exact ⟨by simp, by simp⟩
    · rw [if_neg hre] at h
      cases hp : procRecords tableName (resolved_pk records tableName pk) records [] [] with
      | error e => rw [hp] at h; cases h
      | ok passres =>
        obtain ⟨mains, nt2⟩ := passres
        simp only [hp] at h
        cases hr : recurse_tables
            (fun recs name => extract_nested_fuel n recs name (some "parent_id")) nt2 [] with
        | error e => simp only [hr] at h; cases h
        | ok allN =>
          simp only [hr, Except.ok.injEq] at h
          subst h
          constructor
          · intro r hrm
            exact procRecords_mainsFlat tableName _ records [] []
              (by simp) (mains, nt2) hp r hrm
          · intro t ht r hr2
            exact recurse_tables_flat _
              (fun recs name res2 hok2 => ih recs name (some "parent_id") res2 hok2)
              nt2 [] (by simp) allN hr t ht r hr2

/-- A scalar has depth 0. -/
theorem isScalar_depth (v : JVal) (h : isScalar v = true) : depth v = 0 := by
  cases v <;> simp_all [depth, isScalar]

/-- A scalar is hereditarily safe. -/
theorem isScalar_safeVal (v : JVal) (h : isScalar v = true) : safeVal v = true := by
  cases v <;> simp_all [safeVal, isScalar]

/-- Pointwise form of safeFields. -/
theorem safeFields_mem :
    ∀ (fields : List (String × JVal)), safeFields fields = true →
      ∀ kv ∈ fields, safeVal kv.2 = true := by
  intro fields
  induction fields with
  | nil => intro _ kv h; cases h
  | cons kv2 rest ih =>
    intro h kv hm
    simp only [safeFields, Bool.and_eq_true] at h
    rcases List.mem_cons.mp hm with h2 | h2
    · subst h2; exact h.1
    · exact ih h.2 kv h2

/-- Pointwise form of safeElems. -/
theorem safeElems_mem :
    ∀ (elems : List JVal), safeElems elems = true → ∀ v ∈ elems, safeVal v = true := by
  intro elems
  induction elems with
  | nil => intro _ v h; cases h
  | cons e rest ih =>
    intro h v hm
    simp only [safeElems, Bool.and_eq_true] at h
    rcases List.mem_cons.mp hm with h2 | h2
    · subst h2; exact h.1
    · exact ih h.2 v h2

/-- Pointwise form of safeRec. -/
theorem safeRec_mem (r : Rec) (h : safeRec r = true) : ∀ kv ∈ r, safeVal kv.2 = true := by
  intro kv hm
  exact List.all_eq_true.mp h kv hm

/-- Assemble safeRec from pointwise safety. -/
theorem safeRec_of_forall (r : Rec) (h : ∀ kv ∈ r, safeVal kv.2 = true) :
    safeRec r = true :=
  List.all_eq_true.mpr h

/-- Each field value is at most as deep as the record. -/
theorem depthFields_mem :
    ∀ (fields : List (String × JVal)), ∀ kv ∈ fields, depth kv.2 ≤ depthFields fields := by
  intro fields
  induction fields with
  | nil => intro kv h; cases h
  | cons kv2 rest ih =>
    intro kv hm
    rcases List.mem_cons.mp hm with h2 | h2
    · subst h2; simp [depthFields]
    · have := ih kv h2
      simp only [depthFields]
      omega

/-- Each element is at most as deep as the list. -/
theorem depthList_mem :
    ∀ (elems : List JVal), ∀ v ∈ elems, depth v ≤ depthList elems := by
  intro elems
  induction elems with
  | nil => intro v h; cases h
  | cons e rest ih =>
    intro v hm
    rcases List.mem_cons.mp hm with h2 | h2
    · subst h2; simp [depthList]
    · have := ih v h2
      simp only [depthList]
      omega

/-- A dict assignment bounds the record depth by the old depth and the new
value's depth. -/
theorem depthFields_dictInsert (k : String) (v : JVal) :
    ∀ r : Rec, depthFields (dictInsert r k v) ≤ max (depthFields r) (depth v) := by
  intro r
  induction r with
  | nil => simp [dictInsert, depthFields]
  | cons kv rest ih =>
    obtain ⟨k2, v2⟩ := kv
    by_cases h : k2 = k
    · simp only [dictInsert, if_pos h, depthFields]
      omega
    · simp only [dictInsert, if_neg h, depthFields]
      simp only [depthFields] at ih
      omega

/-- Spreading fields bounds the record depth by both sides. -/
theorem depthFields_dictExtend :
    ∀ (fields base : Rec),
      depthFields (dictExtend base fields) ≤ max (depthFields base) (depthFields fields) := by
  intro fields
  induction fields with
  | nil => intro base; simp [dictExtend]
  | cons kv rest ih =>
    intro base
    obtain ⟨k2, v2⟩ := kv
    have h1 : depthFields (dictExtend (dictInsert base k2 v2) rest) ≤
        max (depthFields (dictInsert base k2 v2)) (depthFields rest) := ih _
    have h2 := depthFields_dictInsert k2 v2 base
    show depthFields (dictExtend (dictInsert base k2 v2) rest) ≤ _
    simp only [depthFields]
    omega

/-- A dict assignment of a safe value keeps a record hereditarily safe. -/
theorem safeRec_dictInsert (k : String) (v : JVal) (hv : safeVal v = true) :
    ∀ r : Rec, safeRec r = true → safeRec (dictInsert r k v) = true := by
  intro r
  induction r with
  | nil => intro _; simp [dictInsert, safeRec, hv]
  | cons kv rest ih =>
    intro hr
    obtain ⟨k2, v2⟩ := kv
    simp only [safeRec, List.all_cons, Bool.and_eq_true] at hr
    by_cases h : k2 = k
    · simp only [dictInsert, if_pos h, safeRec, List.all_cons, Bool.and_eq_true]
      exact ⟨hv, hr.2⟩
    · simp only [dictInsert, if_neg h, safeRec, List.all_cons, Bool.and_eq_true]
      exact ⟨hr.1, ih hr.2⟩

/-- Spreading safe fields keeps a record hereditarily safe. -/
theorem safeRec_dictExtend :
    ∀ (fields base : Rec), safeRec base = true → safeFields fields = true →
      safeRec (dictExtend base fields) = true := by
  intro fields
  induction fields with
  | nil => intro base hb _; exact hb
  | cons kv rest ih =>
    intro base hb hf
    obtain ⟨k2, v2⟩ := kv
    simp only [safeFields, Bool.and_eq_true] at hf
    exact ih (dictInsert base k2 v2) (safeRec_dictInsert k2 v2 hf.1 base hb) hf.2

/-- A batch of records strictly below a bound stays strictly below it (or is
empty). -/
theorem batchDepth_lt (D : Nat) :
    ∀ recs : List Rec, (∀ r ∈ recs, recDepth r < D) →
      recs = [] ∨ batchDepth recs < D := by
  intro recs
  induction recs with
  | nil => intro _; exact Or.inl rfl
  | cons r rest ih =>
    intro h
    right
    have h1 : recDepth r < D := h r (List.mem_cons_self _ _)
    have h2 := ih (fun r2 hm => h r2 (List.mem_cons_of_mem _ hm))
    rcases h2 with h2 | h2
    · subst h2; simp only [batchDepth]; omega
    · simp only [batchDepth]; omega

/-- An empty batch extracts immediately at any fuel. -/
theorem extract_empty (fuel : Nat) (tableName : String) (pk : Option String) :
    extract_nested_fuel fuel [] tableName pk = Except.ok ([], []) := by
  cases fuel <;> rfl

/-- Each record is at most as deep as its batch. -/
theorem batchDepth_mem :
    ∀ (recs : List Rec), ∀ r ∈ recs, recDepth r ≤ batchDepth recs := by
  intro recs
  induction recs with
  | nil => intro r h; cases h
  | cons r2 rest ih =>
    intro r hm
    rcases List.mem_cons.mp hm with h2 | h2
    · subst h2; simp [batchDepth]
    · have := ih r h2
      simp only [batchDepth]
      omega

/-- The satellite record of a safe non-empty object is safe, keeps a scalar
parent link, and is strictly shallower than the object. -/
theorem objSat_inv (pkv : JVal) (fields : Rec)
    (hpkv : isScalar pkv = true) (hsafe : safeVal (JVal.obj fields) = true) :
    safeRec (dictExtend [("parent_id", pkv)] fields) = true
    ∧ isScalar (getVal (dictExtend [("parent_id", pkv)] fields) "parent_id") = true
    ∧ recDepth (dictExtend [("parent_id", pkv)] fields) < depth (JVal.obj fields) := by
  simp only [safeVal, Bool.and_eq_true] at hsafe
  refine ⟨?_, ?_, ?_⟩
  · exact safeRec_dictExtend fields [("parent_id", pkv)]
      (by simp [safeRec, isScalar_safeVal pkv hpkv]) hsafe.2
  · rw [parentLink_objSat pkv fields hsafe.1]
    exact hpkv
  · have h1 := depthFields_dictExtend fields [("parent_id", pkv)]
    have h2 : depthFields [("parent_id", pkv)] = 0 := by
      simp [depthFields, isScalar_depth pkv hpkv]
    rw [h2] at h1
    have h3 : depth (JVal.obj fields) = 1 + depthFields fields := rfl
    rw [h3]
    simp only [recDepth]
    omega

/-- The satellite record of a safe object element of an array is safe, keeps
a scalar parent link, and is bounded by the element's field depth. -/
theorem idxSat_inv (pkv : JVal) (i : Nat) (fs : Rec)
    (hpkv : isScalar pkv = true) (hsafe : safeVal (JVal.obj fs) = true) :
    safeRec (dictExtend [("parent_id", pkv), ("idx", JVal.num (Int.ofNat i))] fs) = true
    ∧ isScalar (getVal (dictExtend [("parent_id", pkv), ("idx", JVal.num (Int.ofNat i))] fs)
        "parent_id") = true
    ∧ recDepth (dictExtend [("parent_id", pkv), ("idx", JVal.num (Int.ofNat i))] fs) ≤
        depthFields fs := by
  simp only [safeVal, Bool.and_eq_true] at hsafe
  refine ⟨?_, ?_, ?_⟩
  · exact safeRec_dictExtend fs _
      (by simp [safeRec, isScalar_safeVal pkv hpkv, safeVal]) hsafe.2
  · rw [parentLink_idxSat pkv i fs hsafe.1]
    exact hpkv
  · have h1 := depthFields_dictExtend fs [("parent_id", pkv), ("idx", JVal.num (Int.ofNat i))]
    have h2 : depthFields [("parent_id", pkv), ("idx", JVal.num (Int.ofNat i))] = 0 := by
      simp only [depthFields, isScalar_depth pkv hpkv]
      rfl
    rw [h2] at h1
    simp only [recDepth]
    omega

/-- The object-array spread succeeds for a homogeneous safe array and every
spawned record satisfies the satellite invariant strictly below the array
depth. -/
theorem spreadObjItems_inv (pkv : JVal) (hpkv : isScalar pkv = true) :
    ∀ (elems : List JVal) (i : Nat),
      elems.all isObjV = true → safeElems elems = true →
      ∃ rs, spreadObjItems pkv i elems = Except.ok rs ∧
        ∀ r ∈ rs, safeRec r = true ∧ isScalar (getVal r "parent_id") = true ∧
          recDepth r < depth (JVal.arr elems) := by
  intro elems
  induction elems with
  | nil => intro i _ _; exact ⟨[], rfl, by intro r h; cases h⟩
  | cons e rest ih =>
    intro i hall hsafe
    simp only [List.all_cons, Bool.and_eq_true] at hall
    simp only [safeElems, Bool.and_eq_true] at hsafe
    cases e with
    | obj fs =>
      obtain ⟨rs2, hrs2, hinv⟩ := ih (i + 1) hall.2 hsafe.2
      refine ⟨dictExtend [("parent_id", pkv), ("idx", JVal.num (Int.ofNat i))] fs :: rs2,
        by simp only [spreadObjItems, hrs2], ?_⟩
      intro r hm
      rcases List.mem_cons.mp hm with h2 | h2
      · subst h2
        obtain ⟨s1, s2, s3⟩ := idxSat_inv pkv i fs hpkv hsafe.1
        refine ⟨s1, s2, ?_⟩
        have h3 : depth (JVal.obj fs) ≤ depthList (JVal.obj fs :: rest) := by
          simp [depthList]
        have h4 : depth (JVal.obj fs) = 1 + depthFields fs := rfl
        have h5 : depth (JVal.arr (JVal.obj fs :: rest)) =
            1 + depthList (JVal.obj fs :: rest) := rfl
        rw [h5]
        rw [h4] at h3
        omega
      · obtain ⟨s1, s2, s3⟩ := hinv r h2
        refine ⟨s1, s2, ?_⟩
        have h3 : depthList rest ≤ depthList (JVal.obj fs :: rest) := by simp [depthList]
        have h4 : depth (JVal.arr rest) = 1 + depthList rest := rfl
        have h5 : depth (JVal.arr (JVal.obj fs :: rest)) =
            1 + depthList (JVal.obj fs :: rest) := rfl
        rw [h4] at s3
        rw [h5]
        omega
    | str s => exact absurd hall.1 (by simp [isObjV])
    | num n2 => exact absurd hall.1 (by simp [isObjV])
    | bool b => exact absurd hall.1 (by simp [isObjV])
    | null => exact absurd hall.1 (by simp [isObjV])
    | arr l => exact absurd hall.1 (by simp [isObjV])

/-- Every record of the primitive-array loop over a safe array satisfies the
satellite invariant strictly below the array depth. -/
theorem scalarItems_inv (pkv : JVal) (hpkv : isScalar pkv = true) :
    ∀ (elems : List JVal) (i : Nat), safeElems elems = true →
      ∀ r ∈ scalarItems pkv i elems,
        safeRec r = true ∧ isScalar (getVal r "parent_id") = true ∧
          recDepth r < depth (JVal.arr elems) := by
  intro elems
  induction elems with
  | nil => intro i _ r h; simp [scalarItems] at h
  | cons e rest ih =>
    intro i hsafe r hm
    simp only [safeElems, Bool.and_eq_true] at hsafe
    simp only [scalarItems] at hm
    rcases List.mem_cons.mp hm with h2 | h2
    · subst h2
      refine ⟨?_, ?_, ?_⟩
      · simp [safeRec, isScalar_safeVal pkv hpkv, safeVal, hsafe.1]
      · exact hpkv
      · have h3 : depth e ≤ depthList (e :: rest) := by simp [depthList]
        have h5 : depth (JVal.arr (e :: rest)) = 1 + depthList (e :: rest) := rfl
        have h6 : depth (JVal.num (Int.ofNat i)) = 0 := rfl
        rw [h5]
        simp only [recDepth, depthFields, isScalar_depth pkv hpkv, h6]
        omega
    · obtain ⟨s1, s2, s3⟩ := ih (i + 1) hsafe.2 r h2
      refine ⟨s1, s2, ?_⟩
      have h3 : depthList rest ≤ depthList (e :: rest) := by simp [depthList]
      have h4 : depth (JVal.arr rest) = 1 + depthList rest := rfl
      have h5 : depth (JVal.arr (e :: rest)) = 1 + depthList (e :: rest) := rfl
      rw [h4] at s3
      rw [h5]
      omega

/-- One field step of a safe record succeeds and preserves the satellite
invariant of the nested-table accumulator. -/
theorem procOneField_safe (tableName k : String) (pkv v : JVal) (main : Rec) (nt : NT)
    (D : Nat) (hpkv : isScalar pkv = true) (hv : safeVal v = true) (hd : depth v ≤ D)
    (hnt : ∀ t ∈ nt, ∀ r ∈ t.2, SatInv D r) :
    ∃ res, procOneField tableName pkv k v main nt = Except.ok res ∧
      ∀ t ∈ res.2, ∀ r ∈ t.2, SatInv D r := by
  cases v with
  | obj fields =>
    by_cases hf : fields.isEmpty
    · exact ⟨(dictInsert main k JVal.null, nt), by simp [procOneField, hf], hnt⟩
    · refine ⟨(main, ntAppend nt (tableName ++ "__" ++ k)
        [dictExtend [("parent_id", pkv)] fields]), by simp [procOneField, hf], ?_⟩
      apply ntAppend_forall nt _ _ hnt
      intro r hr
      simp only [List.mem_singleton] at hr
      subst hr
      obtain ⟨s1, s2, s3⟩ := objSat_inv pkv fields hpkv hv
      exact ⟨s1, s2, by omega⟩
  | arr elems =>
    by_cases he : elems.isEmpty
    · exact ⟨(dictInsert main k JVal.null, nt), by simp [procOneField, he], hnt⟩
    · simp only [safeVal, Bool.and_eq_true] at hv
      cases hh : elems.head? with
      | none => cases elems <;> simp_all
      | some e =>
        cases e with
        | obj fs =>
          have hhom : elems.all isObjV = true := by
            have h0 := hv.1
            simp only [homogeneousArr, hh] at h0
            exact h0
          obtain ⟨rs, hrs, hinv⟩ := spreadObjItems_inv pkv hpkv elems 0 hhom hv.2
          refine ⟨(main, ntAppend nt (tableName ++ "__" ++ k) rs),
            by simp [procOneField, he, hh, hrs], ?_⟩
          apply ntAppend_forall nt _ _ hnt
          intro r hr
          obtain ⟨s1, s2, s3⟩ := hinv r hr
          exact ⟨s1, s2, by omega⟩
        | str s =>
          refine ⟨(main, ntAppend nt (tableName ++ "__" ++ k) (scalarItems pkv 0 elems)),
            by simp [procOneField, he, hh], ?_⟩
          apply ntAppend_forall nt _ _ hnt
          intro r hr
          obtain ⟨s1, s2, s3⟩ := scalarItems_inv pkv hpkv elems 0 hv.2 r hr
          exact ⟨s1, s2, by omega⟩
        | num n2 =>
          refine ⟨(main, ntAppend nt (tableName ++ "__" ++ k) (scalarItems pkv 0 elems)),
            by simp [procOneField, he, hh], ?_⟩
          apply ntAppend_forall nt _ _ hnt
          intro r hr
          obtain ⟨s1, s2, s3⟩ := scalarItems_inv pkv hpkv elems 0 hv.2 r hr
          exact ⟨s1, s2, by omega⟩
        | bool b =>
          refine ⟨(main, ntAppend nt (tableName ++ "__" ++ k) (scalarItems pkv 0 elems)),
            by simp [procOneField, he, hh], ?_⟩
          apply ntAppend_forall nt _ _ hnt
          intro r hr
          obtain ⟨s1, s2, s3⟩ := scalarItems_inv pkv hpkv elems 0 hv.2 r hr
          exact ⟨s1, s2, by omega⟩
        | null =>
          refine ⟨(main, ntAppend nt (tableName ++ "__" ++ k) (scalarItems pkv 0 elems)),
            by simp [procOneField, he, hh], ?_⟩
          apply ntAppend_forall nt _ _ hnt
          intro r hr
          obtain ⟨s1, s2, s3⟩ := scalarItems_inv pkv hpkv elems 0 hv.2 r hr
          exact ⟨s1, s2, by omega⟩
        | arr l =>
          refine ⟨(main, ntAppend nt (tableName ++ "__" ++ k) (scalarItems pkv 0 elems)),
            by simp [procOneField, he, hh], ?_⟩
          apply ntAppend_forall nt _ _ hnt
          intro r hr
          obtain ⟨s1, s2, s3⟩ := scalarItems_inv pkv hpkv elems 0 hv.2 r hr
          exact ⟨s1, s2, by omega⟩
  | str s => exact ⟨(dictInsert main k (JVal.str s), nt), rfl, hnt⟩
  | num n2 => exact ⟨(dictInsert main k (JVal.num n2), nt), rfl, hnt⟩
  | bool b => exact ⟨(dictInsert main k (JVal.bool b), nt), rfl, hnt⟩
  | null => exact ⟨(dictInsert main k JVal.null, nt), rfl, hnt⟩

/-- The field loop of a safe record succeeds and preserves the satellite
invariant. -/
theorem procFields_safe (tableName : String) (pkv : JVal) (D : Nat)
    (hpkv : isScalar pkv = true) :
    ∀ (fields : List (String × JVal)) (main : Rec) (nt : NT),
      (∀ kv ∈ fields, safeVal kv.2 = true) → (∀ kv ∈ fields, depth kv.2 ≤ D) →
      (∀ t ∈ nt, ∀ r ∈ t.2, SatInv D r) →
      ∃ res, procFields tableName pkv fields main nt = Except.ok res ∧
        ∀ t ∈ res.2, ∀ r ∈ t.2, SatInv D r := by
  intro fields
  induction fields with
  | nil => intro main nt _ _ hnt; exact ⟨(main, nt), rfl, hnt⟩
  | cons kv rest ih =>
    intro main nt hsafe hdep hnt
    obtain ⟨k2, v2⟩ := kv
    obtain ⟨st, hst, hstInv⟩ := procOneField_safe tableName k2 pkv v2 main nt D hpkv
      (hsafe (k2, v2) (List.mem_cons_self _ _)) (hdep (k2, v2) (List.mem_cons_self _ _)) hnt
    obtain ⟨m2, nt3⟩ := st
    obtain ⟨res, hres, hresInv⟩ := ih m2 nt3
      (fun kv2 hm => hsafe kv2 (List.mem_cons_of_mem _ hm))
      (fun kv2 hm => hdep kv2 (List.mem_cons_of_mem _ hm)) hstInv
    exact ⟨res, by simp only [procFields, hst]; exact hres, hresInv⟩

/-- The record loop of a safe batch succeeds and every nested-table record
satisfies the satellite invariant. -/
theorem procRecords_safe (tableName : String) (pk : Option String) (D : Nat) :
    ∀ (records mains : List Rec) (nt : NT),
      (∀ r ∈ records, safeRec r = true) →
      (∀ r ∈ records, isScalar (pkValue pk r) = true) →
      (∀ r ∈ records, recDepth r ≤ D) →
      (∀ t ∈ nt, ∀ r ∈ t.2, SatInv D r) →
      ∃ res, procRecords tableName pk records mains nt = Except.ok res ∧
        ∀ t ∈ res.2, ∀ r ∈ t.2, SatInv D r := by
  intro records
  induction records with
  | nil => intro mains nt _ _ _ hnt; exact ⟨(mains, nt), rfl, hnt⟩
  | cons r rest ih =>
    intro mains nt hsafe hkey hdep hnt
    obtain ⟨st, hst, hstInv⟩ := procFields_safe tableName (pkValue pk r) D
      (hkey r (List.mem_cons_self _ _)) r [] nt
      (safeRec_mem r (hsafe r (List.mem_cons_self _ _)))
      (fun kv hm => le_trans (depthFields_mem r kv hm) (hdep r (List.mem_cons_self _ _)))
      hnt
    obtain ⟨m2, nt3⟩ := st
    obtain ⟨res, hres, hresInv⟩ := ih (mains ++ [m2]) nt3
      (fun r2 hm => hsafe r2 (List.mem_cons_of_mem _ hm))
      (fun r2 hm => hkey r2 (List.mem_cons_of_mem _ hm))
      (fun r2 hm => hdep r2 (List.mem_cons_of_mem _ hm)) hstInv
    exact ⟨res, by simp only [procRecords, hst]; exact hres, hresInv⟩

/-- If every recursive call succeeds on invariant-satisfying tables,
assembling the nested tables succeeds. -/
theorem recurse_tables_ok (D : Nat)
    (f : List Rec → String → Except ExtractErr (List Rec × NT))
    (hf : ∀ (name : String) (recs : List Rec), (∀ r ∈ recs, SatInv D r) →
      ∃ out, f recs name = Except.ok out) :
    ∀ (nt acc : NT), (∀ t ∈ nt, ∀ r ∈ t.2, SatInv D r) →
      ∃ res, recurse_tables f nt acc = Except.ok res := by
  intro nt
  induction nt with
  | nil => intro acc _; exact ⟨acc, rfl⟩
  | cons p rest ih =>
    intro acc hnt
    obtain ⟨name, recs⟩ := p
    obtain ⟨out, hout⟩ := hf name recs (hnt (name, recs) (List.mem_cons_self _ _))
    obtain ⟨flat, deeper⟩ := out
    obtain ⟨res, hres⟩ := ih (ntUpdateAll (ntSet acc name flat) deeper)
      (fun t2 ht2 => hnt t2 (List.mem_cons_of_mem _ ht2))
    exact ⟨res, by simp only [recurse_tables, hout]; exact hres⟩

/-- On a hereditarily safe batch with a scalar effective key, the embedded
extract_nested succeeds within fuel batchDepth + 1. -/
theorem extract_safe_aux :
    ∀ (fuel : Nat) (records : List Rec) (tableName : String) (pk0 : Option String),
      safeBatch records = true →
      safeKey (resolved_pk records tableName pk0) records = true →
      batchDepth records < fuel →
      ∃ res, extract_nested_fuel fuel records tableName pk0 = Except.ok res := by
  intro fuel
  induction fuel with
  | zero => intro records _ _ _ _ hF; omega
  | succ n ih =>
    intro records tableName pk0 hS hK hF
    by_cases hre : records.isEmpty
    · exact ⟨([], []), by rw [extract_nested_fuel, if_pos hre]⟩
    · obtain ⟨passres, hpass, hinv⟩ := procRecords_safe tableName
        (resolved_pk records tableName pk0) (batchDepth records) records [] []
        (fun r hm => List.all_eq_true.mp hS r hm)
        (fun r hm => by have := List.all_eq_true.mp hK r hm; simpa using this)
        (fun r hm => batchDepth_mem records r hm)
        (by intro t ht; cases ht)
      obtain ⟨mains, nt2⟩ := passres
      obtain ⟨res2, hres2⟩ := recurse_tables_ok (batchDepth records)
        (fun recs name => extract_nested_fuel n recs name (some "parent_id"))
        (by
          intro name recs hrecs
          by_cases hempty : recs = []
          · subst hempty
            exact ⟨([], []), extract_empty n name (some "parent_id")⟩
          · have hlt : batchDepth recs < batchDepth records := by
              rcases batchDepth_lt (batchDepth records) recs
                (fun r hm => (hrecs r hm).2.2) with h | h
              · exact absurd h hempty
              · exact h
            apply ih recs name (some "parent_id")
            · exact List.all_eq_true.mpr (fun r hm => (hrecs r hm).1)
            · apply List.all_eq_true.mpr
              intro r hm
              have := (hrecs r hm).2.1
              simpa [resolved_pk, pkValue] using this
            · omega)
        nt2 [] hinv
      refine ⟨(mains, res2), ?_⟩
      rw [extract_nested_fuel, if_neg hre]
      simp only [hpass, hres2]

/-- C3 (amended): whenever extract_nested returns, every record of the main
record set and of every satellite table holds only scalar values; and it
does return — terminating within fuel batchDepth + 1 — whenever the batch is
hereditarily safe, that is, the effective primary-key value of every record
is scalar, no nested object carries a parent_id field of its own, and
object-headed arrays contain only objects.  Termination does not hold for
every finite-depth batch: see the divergence counterexample. -/
theorem extract_nested_flat_and_safe_termination
    (records : List Rec) (tableName : String) (pk0 : Option String) (fuel : Nat)
    (hS : safeBatch records = true)
    (hK : safeKey (resolved_pk records tableName pk0) records = true)
    (hF : batchDepth records < fuel) :
    (∀ (fuel2 : Nat) (records2 : List Rec) (tableName2 : String) (pk2 : Option String)
        (res2 : List Rec × NT),
      extract_nested_fuel fuel2 records2 tableName2 pk2 = Except.ok res2 →
      (∀ r ∈ res2.1, flatRec r = true) ∧ (∀ t ∈ res2.2, ∀ r ∈ t.2, flatRec r = true))
    ∧ ∃ res, extract_nested_fuel fuel records tableName pk0 = Except.ok res :=
  ⟨extract_flat_aux, extract_safe_aux fuel records tableName pk0 hS hK hF⟩

/-- Witness for extract_nested_flat_and_safe_termination on the concrete
user batch at fuel 2. -/
theorem extract_nested_flat_and_safe_termination_witness :
    ∃ res, extract_nested_fuel 2 userBatch "user" none = Except.ok res :=
  (extract_nested_flat_and_safe_termination userBatch "user" none 2 (by rfl) (by rfl)
    (by decide)).2

end Fidoo
